import Mathlib

/-!
# Verification of the `ecflash` EC-flashing tool

A shallow embedding of the core of the `ecflash` repository, together with
proofs about it.  Bytes are modelled as `Nat` (the Rust code works on `u8`;
every byte-valued expression is reduced `% 256` where the source casts).
Rust `String`s built by pushing `byte as char` are modelled as the underlying
byte lists: the Rust conversion `u8 -> char` is injective (Latin-1), so
equality of the modelled byte lists is equivalent to equality of the produced
strings.

The file is organised as:
* `EcFileNew` — the current file-backed binding (`src/file.rs`),
* `EcFileOld` — the historical draft (`src/ec/file.rs`),
* scanner analysis (`mstep`/`mrun`) used for the key-scan theorems,
* `EcChannel` — the byte-level EC channel (`src/flash.rs`) wait loops,
* `Sim` — a simulated EC devoted to the `Flasher` protocol engine
  (`src/flasher.rs`) modelling the documented command vocabulary,
* `Isp` — the SPI helpers of `examples/isp.rs`,
* `FlashMain` — the verification steps of `examples/flash.rs`,
* the claim theorems.
-/

set_option maxRecDepth 16000

namespace Ecflash

/-! ## The current file-backed binding, `src/file.rs` -/

namespace EcFileNew

/-- Embedding of `EcFile::get_str` from `src/file.rs` (lines 11–37).
State `i` is the rolling match position into `key`; `acc` is the string
accumulated after a full key match.  While `i < key.len()`, a matching byte
advances `i`; a mismatch at `i = 0` consumes the byte; a mismatch at `i > 0`
resets `i` to 0 and re-checks the same byte against `key[0]` (the inner
`loop` of the Rust code).  Once `i = key.len()`, a `$` byte (36) returns the
accumulator and any other byte is appended to it. -/
def getStrGo (key : List Nat) : Nat → List Nat → List Nat → List Nat
  | _, acc, [] => acc
  | i, acc, b :: rest =>
    if i < key.length then
      if b = key.getD i 0 then getStrGo key (i + 1) acc rest
      else if i = 0 then getStrGo key 0 acc rest
      else if b = key.getD 0 0 then getStrGo key 1 acc rest
      else getStrGo key 0 acc rest
    else if b = 36 then acc
    else getStrGo key i (acc ++ [b]) rest

/-- `EcFile::get_str` starts scanning with match position 0 and an empty
accumulator. -/
def get_str (key data : List Nat) : List Nat :=
  getStrGo key 0 [] data

/-- The bytes of `"PRJ:"`. -/
def prjKey : List Nat := [80, 82, 74, 58]

/-- The bytes of `"VER:"`. -/
def verKey : List Nat := [86, 69, 82, 58]

/-- `EcFile::project` (`src/file.rs` lines 49–51): scan for `"PRJ:"`. -/
def project (data : List Nat) : List Nat :=
  get_str prjKey data

/-- The `while version.starts_with(' ') { version.remove(0) }` loop of
`EcFile::version`. -/
def stripSpaces : List Nat → List Nat
  | 32 :: rest => stripSpaces rest
  | l => l

/-- `EcFile::version` (`src/file.rs` lines 53–59): scan for `"VER:"`, then
strip leading spaces. -/
def version (data : List Nat) : List Nat :=
  stripSpaces (get_str verKey data)

/-- `EcFile::size`: the byte length of the captured image. -/
def size (data : List Nat) : Nat := data.length

end EcFileNew

/-! ## The historical draft, `src/ec/file.rs` -/

namespace EcFileOld

/-- Embedding of the older `EcFile::get_str` from `src/ec/file.rs`
(lines 10–30).  Unlike the current draft there is no inner `loop`: a
mismatching byte always resets `i` to 0 and is consumed without being
re-checked against `key[0]`. -/
def getStrGo (key : List Nat) : Nat → List Nat → List Nat → List Nat
  | _, acc, [] => acc
  | i, acc, b :: rest =>
    if i < key.length then
      if b = key.getD i 0 then getStrGo key (i + 1) acc rest
      else getStrGo key 0 acc rest
    else if b = 36 then acc
    else getStrGo key i (acc ++ [b]) rest

/-- The older `EcFile::get_str` entry point. -/
def get_str (key data : List Nat) : List Nat :=
  getStrGo key 0 [] data

/-- The older `EcFile::project`. -/
def project (data : List Nat) : List Nat :=
  get_str EcFileNew.prjKey data

/-- The older `EcFile::version` (the `while version.chars().next() ==
Some(' ')` loop strips leading spaces exactly as the current draft does). -/
def version (data : List Nat) : List Nat :=
  EcFileNew.stripSpaces (get_str EcFileNew.verKey data)

/-- The older `EcFile::size`. -/
def size (data : List Nat) : Nat := data.length

end EcFileOld

/-! ## The EC channel wait discipline, `src/flash.rs` -/

namespace EcChannel

/-!
The status port is modelled as the sequence `sts : Nat → Nat` of values that
successive `sts()` calls (reads of `cmd_port`) return, together with an index
`i` counting the status reads performed so far.  Writes to the data and
command ports do not affect this model (they are one-way `out` instructions);
the wait discipline of `src/flash.rs` only ever branches on status reads.
-/

/-- `const TIMEOUT: usize = 100000;` (`src/flash.rs` line 10). -/
def TIMEOUT : Nat := 100000

/-- `EcFlash::can_read`: bit 0 of the status is set. -/
def canRead (sts : Nat) : Bool := sts &&& 1 == 1

/-- `EcFlash::can_write`: bit 1 of the status is clear. -/
def canWrite (sts : Nat) : Bool := sts &&& 2 == 0

/-- The loop shared by `wait_read` and `wait_write`
(`src/flash.rs` lines 27–37 and 43–53):
`while !cond() && timeout > 0 { timeout -= 1 }`.  Each iteration reads the
status once (short-circuit: the condition is read before `timeout > 0` is
tested, so even the final exit performs a read).  Returns the final value of
`timeout` and the next status-read index. -/
def waitLoop (cond : Nat → Bool) (sts : Nat → Nat) : Nat → Nat → Nat × Nat
  | i, 0 => (0, i + 1)
  | i, t + 1 => if cond (sts i) then (t + 1, i + 1) else waitLoop cond sts (i + 1) t

/-- `EcFlash::wait_read`: run the loop, then `if timeout == 0 { Err } else
{ Ok }`. -/
def wait_read (sts : Nat → Nat) (i t : Nat) : Except Unit Unit × Nat :=
  (if (waitLoop canRead sts i t).1 = 0 then Except.error () else Except.ok (),
    (waitLoop canRead sts i t).2)

/-- `EcFlash::wait_write`. -/
def wait_write (sts : Nat → Nat) (i t : Nat) : Except Unit Unit × Nat :=
  (if (waitLoop canWrite sts i t).1 = 0 then Except.error () else Except.ok (),
    (waitLoop canWrite sts i t).2)

/-- `EcFlash::cmd`: `wait_write(TIMEOUT)?; outb(cmd_port, data);
wait_write(TIMEOUT)`.  The `outb` does not touch the status model; the
result carries the next status index. -/
def cmd (sts : Nat → Nat) (i : Nat) : Except Unit Nat :=
  match wait_write sts i TIMEOUT with
  | (Except.error _, _) => Except.error ()
  | (Except.ok _, i1) =>
    match wait_write sts i1 TIMEOUT with
    | (Except.error _, _) => Except.error ()
    | (Except.ok _, i2) => Except.ok i2

/-- `EcFlash::read`: `wait_read(TIMEOUT)?; Ok(inb(data_port))`. -/
def read (sts : Nat → Nat) (i : Nat) : Except Unit Nat :=
  match wait_read sts i TIMEOUT with
  | (Except.error _, _) => Except.error ()
  | (Except.ok _, i1) => Except.ok i1

/-- `EcFlash::write`: `wait_write(TIMEOUT)?; outb(data_port, data);
wait_write(TIMEOUT)`. -/
def write (sts : Nat → Nat) (i : Nat) : Except Unit Nat :=
  match wait_write sts i TIMEOUT with
  | (Except.error _, _) => Except.error ()
  | (Except.ok _, i1) =>
    match wait_write sts i1 TIMEOUT with
    | (Except.error _, _) => Except.error ()
    | (Except.ok _, i2) => Except.ok i2

/-- Whether an `Except` result is a success. -/
def isOkE {α : Type} : Except Unit α → Bool
  | Except.ok _ => true
  | Except.error _ => false

end EcChannel

/-! ## A simulated EC for the `Flasher` protocol engine, `src/flasher.rs`

The simulated EC models the documented command vocabulary against an
in-memory flash array:

* channel command 1 enters follow mode and 5 exits it; both terminate the
  SPI transaction in progress (deassert chip select), which is what lets the
  flasher re-enter follow mode between AAI words without an explicit exit;
* command 2 makes the next command byte an SPI opcode, command 3 makes it an
  SPI data byte, command 4 performs one SPI read and queues the byte on the
  EC output buffer, command `0xDC` queues the start acknowledgement 51;
* SPI opcodes: `0x05` read status (`WEL` in bit 1; the simulated flash is
  never busy, so bit 0 is always clear and every status poll terminates
  after one read), `0x06` write enable, `0x04` write disable (also ends AAI
  mode), `0x0B` fast read (three address bytes, high byte first, then one
  dummy byte), `0xAD` AAI word program (three address bytes on the first
  instance after write-enable, then data bytes at auto-incrementing
  addresses; programming is modelled as overwriting the array), `0xD7`
  erase of the 1 KiB block addressed as `[region, block, 0]` — the address
  interpretation the spec documents for the erase sequence (`§4.4`, `§8 S4`:
  erasing all `(region, block)` pairs must blank the whole array);
* a failure schedule `failAt` models a channel timeout in the n-th `cmd()`:
  that `cmd` returns `Err` without reaching the EC, as
  `EcFlash::cmd` does when `wait_write` times out.

The flasher's unbounded status-poll loops (`while spi_read()? & .. {}`) are
embedded with an explicit fuel parameter: fuel 0 aborts, and on this
simulated EC every poll exits after a single read, so any positive fuel
reproduces the source behaviour.  Progress callbacks (`F: Fn(usize)`) only
print and are not modelled. -/

namespace Sim

/-- One observable channel event: a byte written to the command port by
`ec.cmd`, or a data-port read by `ec.read`. -/
inductive Ev where
  | cmd (b : Nat)
  | rd
deriving DecidableEq, Repr

/-- What the EC expects the next command byte to be. -/
inductive Pending where
  | pnone
  | pOp
  | pDat
deriving DecidableEq, Repr

/-- The SPI decode state of the simulated flash device within the current
transaction. -/
inductive Decode where
  | idle
  | status
  | readAddr (bytes : List Nat)
  | reading (addr : Nat)
  | eraseAddr (bytes : List Nat)
  | aaiAddr (bytes : List Nat)
  | aaiData
deriving DecidableEq, Repr

/-- The simulated EC state. -/
structure SimEc where
  flash : List Nat
  follow : Bool
  wel : Bool
  aai : Option Nat
  dec : Decode
  pend : Pending
  out : List Nat
  trace : List Ev
  failAt : Option Nat

/-- The result of running a flasher computation: success or failure, each
with the final EC state (a failed `ec.cmd` leaves the EC as it was). -/
inductive EcRes (α : Type) where
  | ok (a : α) (s : SimEc)
  | err (s : SimEc)

/-- Flasher computations: state transformers over the simulated EC that can
fail (the `Result<_, ()>` of `src/flasher.rs`). -/
def EcM (α : Type) : Type := SimEc → EcRes α

instance : Monad EcM where
  pure a := fun s => EcRes.ok a s
  bind x g := fun s =>
    match x s with
    | EcRes.ok a s1 => g a s1
    | EcRes.err s1 => EcRes.err s1

/-- The failing computation (a channel timeout or exhausted poll fuel). -/
def ecErr {α : Type} : EcM α := fun s => EcRes.err s

/-- Store a byte list into the flash array starting at `i` (`List.set` is a
no-op out of range, as writes beyond the array are). -/
def writeBytes : List Nat → Nat → List Nat → List Nat
  | l, _, [] => l
  | l, i, b :: bs => writeBytes (l.set i b) (i + 1) bs

/-- A 24-bit SPI address from three bytes, high byte first. -/
def addr3 (b0 b1 b2 : Nat) : Nat := b0 * 65536 + b1 * 256 + b2

/-- The SPI status byte: bit 0 (busy) always clear, bit 1 = `WEL`. -/
def statusByte (s : SimEc) : Nat := if s.wel then 2 else 0

/-- The flash device terminates the transaction in progress (chip-select
cycle on follow-mode entry and exit). -/
def devFinish (s : SimEc) : SimEc := { s with dec := Decode.idle }

/-- The flash device receives an SPI opcode. -/
def devCmd (c : Nat) (s : SimEc) : SimEc :=
  if c = 5 then { s with dec := Decode.status }
  else if c = 6 then { s with wel := true, dec := Decode.idle }
  else if c = 4 then { s with wel := false, aai := none, dec := Decode.idle }
  else if c = 11 then { s with dec := Decode.readAddr [] }
  else if c = 215 then { s with dec := Decode.eraseAddr [] }
  else if c = 173 then
    match s.aai with
    | some _ => { s with dec := Decode.aaiData }
    | none => { s with dec := Decode.aaiAddr [] }
  else { s with dec := Decode.idle }

/-- The flash device receives an SPI data byte. -/
def devDat (b : Nat) (s : SimEc) : SimEc :=
  match s.dec with
  | Decode.readAddr bs =>
    if bs.length = 3 then
      { s with dec := Decode.reading (addr3 (bs.getD 0 0) (bs.getD 1 0) (bs.getD 2 0)) }
    else { s with dec := Decode.readAddr (bs ++ [b]) }
  | Decode.eraseAddr bs =>
    if bs.length = 2 then
      { s with
        flash := writeBytes s.flash (bs.getD 0 0 * 65536 + bs.getD 1 0 * 1024)
          (List.replicate 1024 255),
        wel := false, dec := Decode.idle }
    else { s with dec := Decode.eraseAddr (bs ++ [b]) }
  | Decode.aaiAddr bs =>
    if bs.length = 2 then
      { s with aai := some (addr3 (bs.getD 0 0) (bs.getD 1 0) b), dec := Decode.aaiData }
    else { s with dec := Decode.aaiAddr (bs ++ [b]) }
  | Decode.aaiData =>
    match s.aai with
    | some a => { s with flash := s.flash.set a b, aai := some (a + 1) }
    | none => s
  | _ => s

/-- The flash device produces an SPI read byte. -/
def devRead (s : SimEc) : Nat × SimEc :=
  match s.dec with
  | Decode.status => (statusByte s, s)
  | Decode.reading a => (s.flash.getD a 255, { s with dec := Decode.reading (a + 1) })
  | _ => (0, s)

/-- Decrement a failure countdown. -/
def tick (fa : Option Nat) : Option Nat := fa.map (fun n => n - 1)

/-- The EC's reaction to one command byte (after the failure schedule has
been consulted and the event recorded). -/
def ecStep (b : Nat) (s : SimEc) : SimEc :=
  match s.pend with
  | Pending.pOp => devCmd b { s with pend := Pending.pnone }
  | Pending.pDat => devDat b { s with pend := Pending.pnone }
  | Pending.pnone =>
    if b = 1 then devFinish { s with follow := true }
    else if b = 5 then devFinish { s with follow := false }
    else if b = 2 then { s with pend := Pending.pOp }
    else if b = 3 then { s with pend := Pending.pDat }
    else if b = 4 then
      ((fun r => { r.2 with out := r.2.out ++ [r.1] }) (devRead s))
    else if b = 220 then { s with out := s.out ++ [51] }
    else s

/-- `ec.cmd(b)`: fails when the failure schedule says this `cmd` times out,
otherwise performs the EC step. -/
def ecCmd (b : Nat) : EcM Unit := fun s =>
  match s.failAt with
  | some 0 => EcRes.err s
  | _ =>
    EcRes.ok () (ecStep b { s with failAt := tick s.failAt, trace := s.trace ++ [Ev.cmd b] })

/-- `ec.read()`: pop the EC output buffer. -/
def ecRead : EcM Nat := fun s =>
  match s.out with
  | [] => EcRes.err s
  | v :: rest => EcRes.ok v { s with out := rest, trace := s.trace ++ [Ev.rd] }

/-- `Flasher::enter_follow_mode` (`src/flasher.rs` line 20). -/
def enter_follow_mode : EcM Unit := ecCmd 1

/-- `Flasher::exit_follow_mode` (line 45). -/
def exit_follow_mode : EcM Unit := ecCmd 5

/-- `Flasher::spi_cmd` (line 24). -/
def spi_cmd (c : Nat) : EcM Unit := do
  ecCmd 2
  ecCmd c

/-- `Flasher::spi_write` (line 31). -/
def spi_write (v : Nat) : EcM Unit := do
  ecCmd 3
  ecCmd v

/-- `Flasher::spi_read` (line 38). -/
def spi_read : EcM Nat := do
  ecCmd 4
  ecRead

/-- A status-poll loop `while again (spi_read()?) {}`, embedded with fuel. -/
def spiPoll (again : Nat → Bool) : Nat → EcM Unit
  | 0 => ecErr
  | f + 1 => do
    let v ← spi_read
    if again v then spiPoll again f else pure ()

/-- `Flasher::spi_wait` (lines 49–56). -/
def spi_wait (f : Nat) : EcM Unit := do
  enter_follow_mode
  spi_cmd 5
  spiPoll (fun v => decide (0 < v &&& 1)) f
  exit_follow_mode

/-- `Flasher::spi_write_enable` (lines 58–69). -/
def spi_write_enable (f : Nat) : EcM Unit := do
  spi_wait f
  enter_follow_mode
  spi_cmd 6
  enter_follow_mode
  spi_cmd 5
  spiPoll (fun v => decide (v &&& 3 ≠ 2)) f
  exit_follow_mode

/-- `Flasher::spi_write_disable` (lines 71–81). -/
def spi_write_disable (f : Nat) : EcM Unit := do
  spi_wait f
  enter_follow_mode
  spi_cmd 4
  enter_follow_mode
  spi_cmd 5
  spiPoll (fun v => decide (0 < v &&& 2)) f
  exit_follow_mode

/-- `Flasher::start` (lines 83–88). -/
def start : EcM Nat := do
  ecCmd 220
  ecRead

/-- `Flasher::stop` (lines 175–180). -/
def stop : EcM Unit := do
  ecCmd 149
  ecCmd 252

/-- The `Flasher` struct: the cached device size. -/
structure Flasher where
  size : Nat

/-- `for i in start..start+n { body i }`. -/
def iterM (body : Nat → EcM Unit) : Nat → Nat → EcM Unit
  | _, 0 => pure ()
  | i, n + 1 => do
    body i
    iterM body (i + 1) n

/-- The inner 1 KiB read loop of `Flasher::read` (line 107): `n` SPI reads
pushed onto the output buffer in order. -/
def readChunk : Nat → EcM (List Nat)
  | 0 => pure []
  | n + 1 => do
    let v ← spi_read
    let rest ← readChunk n
    pure (v :: rest)

/-- The 64-block loop of `Flasher::read` (line 106). -/
def readBlocks : Nat → EcM (List Nat)
  | 0 => pure []
  | n + 1 => do
    let blk ← readChunk 1024
    let rest ← readBlocks n
    pure (blk ++ rest)

/-- One region of `Flasher::read` (lines 94–114). -/
def readSector (f : Nat) (sector : Nat) : EcM (List Nat) := do
  spi_write_disable f
  spi_wait f
  enter_follow_mode
  spi_cmd 11
  spi_write (sector % 256)
  spi_write 0
  spi_write 0
  spi_write 0
  let chunk ← readBlocks 64
  spi_wait f
  pure chunk

/-- The region loop of `Flasher::read`, concatenating the regions read. -/
def readSectors (f : Nat) : Nat → Nat → EcM (List Nat)
  | _, 0 => pure []
  | sector, n + 1 => do
    let chunk ← readSector f sector
    let rest ← readSectors f (sector + 1) n
    pure (chunk ++ rest)

/-- `Flasher::read` (lines 90–118). -/
def Flasher.read (fl : Flasher) (f : Nat) : EcM (List Nat) :=
  readSectors f 0 (fl.size / 65536)

/-- One block of `Flasher::erase` (lines 121–137). -/
def eraseBlock (f : Nat) (sector block : Nat) : EcM Unit := do
  spi_write_enable f
  enter_follow_mode
  spi_cmd 215
  spi_write (sector % 256)
  spi_write (block % 256)
  spi_write 0
  exit_follow_mode
  spi_wait f

/-- `Flasher::erase` (lines 120–141). -/
def Flasher.erase (fl : Flasher) (f : Nat) : EcM Unit :=
  iterM (fun sector => iterM (fun block => eraseBlock f sector block) 0 64)
    0 (fl.size / 65536)

/-- One AAI word of `Flasher::write` (lines 151–162): enter follow mode,
opcode `0xAD`, the three address bytes exactly on the first word of the
region, then the two data bytes (0xFF beyond the buffer), then `spi_wait`. -/
def writeWord (f : Nat) (buf : List Nat) (sector block word : Nat) : EcM Unit := do
  enter_follow_mode
  spi_cmd 173
  if block = 0 ∧ word = 0 then do
    spi_write (sector % 256)
    spi_write ((sector >>> 8) % 256)
    spi_write ((sector >>> 16) % 256)
  else pure ()
  spi_write (buf.getD (sector * 65536 + block * 1024 + word * 2) 255)
  spi_write (buf.getD (sector * 65536 + block * 1024 + word * 2 + 1) 255)
  spi_wait f

/-- One region of `Flasher::write` (lines 144–170): write-enable once, then
64 blocks of 512 words, then write-disable and wait. -/
def writeSectorBody (f : Nat) (buf : List Nat) (sector : Nat) : EcM Unit := do
  spi_write_enable f
  iterM (fun block => iterM (fun word => writeWord f buf sector block word) 0 512) 0 64
  spi_write_disable f
  spi_wait f

/-- `Flasher::write` (lines 143–173). -/
def Flasher.write (fl : Flasher) (f : Nat) (buf : List Nat) : EcM Unit :=
  iterM (fun sector => writeSectorBody f buf sector) 0 (fl.size / 65536)

/-- Dropping the library `Flasher`: `src/flasher.rs` declares no `Drop`
implementation and its fields (`EcFlash`, `usize`) need none, so dropping a
`Flasher` performs no EC commands at all.  Modelled as the identity
computation. -/
def Flasher.dropRun : EcM Unit := pure ()

/-- The initial (power-on / freshly started) simulated EC over a given flash
array: not in follow mode, write-disabled, no AAI sequence open, empty
output buffer, no failure scheduled. -/
def initEc (fl : List Nat) : SimEc :=
  { flash := fl, follow := false, wel := false, aai := none,
    dec := Decode.idle, pend := Pending.pnone, out := [], trace := [],
    failAt := none }

/-- A simulated EC state with empty output buffer, no pending command
routing and no scheduled failure — the shape every primitive boundary
preserves.  Used to state the symbolic-execution lemmas. -/
def mkSt (fl : List Nat) (fo w : Bool) (aai : Option Nat) (d : Decode)
    (tr : List Ev) : SimEc :=
  { flash := fl, follow := fo, wel := w, aai := aai, dec := d,
    pend := Pending.pnone, out := [], trace := tr, failAt := none }

/-- The bytes `buf[a], buf[a+1], …, buf[a+n-1]`, reading 0xFF beyond the
end. -/
def rangeGetD (buf : List Nat) (a n : Nat) : List Nat :=
  (List.range n).map (fun j => buf.getD (a + j) 255)

/-- The follow flag of the state a run ends in (success or failure). -/
def followAfter {α : Type} : EcRes α → Bool
  | EcRes.ok _ s => s.follow
  | EcRes.err s => s.follow

/-- Whether a run failed. -/
def isErrR {α : Type} : EcRes α → Bool
  | EcRes.ok _ _ => false
  | EcRes.err _ => true

/-- A flasher state mid-way through a primitive whose next `ec.cmd` will
time out; used to exhibit an error return that leaves follow mode set. -/
def cexSt : SimEc :=
  { flash := [], follow := false, wel := false, aai := none,
    dec := Decode.idle, pend := Pending.pnone, out := [], trace := [],
    failAt := some 1 }

/-- A state in which a previous failure left follow mode on. -/
def cexFollowSt : SimEc :=
  { flash := [], follow := true, wel := false, aai := none,
    dec := Decode.idle, pend := Pending.pnone, out := [], trace := [],
    failAt := none }

/-- Computations whose successful runs keep the `pend = pnone` boundary
invariant. -/
def PendKeeps {α : Type} (x : EcM α) : Prop :=
  ∀ s a s1, s.pend = Pending.pnone → x s = EcRes.ok a s1 →
    s1.pend = Pending.pnone

/-- Computations whose successful runs end with follow mode off (and keep
the boundary invariant). -/
def FollowClears {α : Type} (x : EcM α) : Prop :=
  ∀ s a s1, s.pend = Pending.pnone → x s = EcRes.ok a s1 →
    s1.pend = Pending.pnone ∧ s1.follow = false

/-- Computations whose successful runs end with follow mode off or leave the
state untouched (loops with possibly zero iterations). -/
def FollowStable {α : Type} (x : EcM α) : Prop :=
  ∀ s a s1, s.pend = Pending.pnone → x s = EcRes.ok a s1 →
    s1.pend = Pending.pnone ∧ (s1.follow = false ∨ s1 = s)

/-- Computations whose successful runs keep the boundary invariant and leave
the follow-mode flag exactly as they found it. -/
def FollowKeeps {α : Type} (x : EcM α) : Prop :=
  ∀ s a s1, s.pend = Pending.pnone → x s = EcRes.ok a s1 →
    s1.pend = Pending.pnone ∧ s1.follow = s.follow

/-! Event traces of the primitives on the simulated EC (each status poll is
a single read, since the simulated flash is never busy and latches `WEL`
immediately). -/

/-- Trace of `enter_follow_mode`. -/
def enterTr : List Ev := [Ev.cmd 1]

/-- Trace of `exit_follow_mode`. -/
def exitTr : List Ev := [Ev.cmd 5]

/-- Trace of `spi_cmd c`. -/
def spiCmdTr (c : Nat) : List Ev := [Ev.cmd 2, Ev.cmd c]

/-- Trace of `spi_write v`. -/
def spiWriteTr (v : Nat) : List Ev := [Ev.cmd 3, Ev.cmd v]

/-- Trace of `spi_read`. -/
def spiReadTr : List Ev := [Ev.cmd 4, Ev.rd]

/-- Trace of `spi_wait` on the simulated EC. -/
def spiWaitTr : List Ev := enterTr ++ spiCmdTr 5 ++ spiReadTr ++ exitTr

/-- Trace of `spi_write_enable` on the simulated EC. -/
def wrenTr : List Ev :=
  spiWaitTr ++ enterTr ++ spiCmdTr 6 ++ enterTr ++ spiCmdTr 5 ++ spiReadTr ++ exitTr

/-- Trace of `spi_write_disable` on the simulated EC. -/
def wrdiTr : List Ev :=
  spiWaitTr ++ enterTr ++ spiCmdTr 4 ++ enterTr ++ spiCmdTr 5 ++ spiReadTr ++ exitTr

/-- The three AAI address bytes `[sector, sector >> 8, sector >> 16]`. -/
def addrTr (sector : Nat) : List Ev :=
  spiWriteTr (sector % 256) ++ spiWriteTr ((sector >>> 8) % 256) ++
    spiWriteTr ((sector >>> 16) % 256)

/-- The claimed per-word emission of `Flasher::write`: enter follow mode,
SPI command `0xAD`, the address bytes exactly when `block = 0 ∧ word = 0`,
the two data bytes `buf[sector*65536 + block*1024 + word*2]` and the byte
after it (0xFF beyond the buffer), then `spi_wait`. -/
def wordTr (buf : List Nat) (sector block word : Nat) : List Ev :=
  enterTr ++ spiCmdTr 173 ++
    (if block = 0 ∧ word = 0 then addrTr sector else []) ++
    spiWriteTr (buf.getD (sector * 65536 + block * 1024 + word * 2) 255) ++
    spiWriteTr (buf.getD (sector * 65536 + block * 1024 + word * 2 + 1) 255) ++
    spiWaitTr

/-- Concatenation of `g i, g (i+1), …, g (i+n-1)`. -/
def joinIter (g : Nat → List Ev) : Nat → Nat → List Ev
  | _, 0 => []
  | i, n + 1 => g i ++ joinIter g (i + 1) n

/-- Trace of one region of `Flasher::write`: `spi_write_enable` once, then
the 64 × 512 word emissions, then `spi_write_disable` and `spi_wait`. -/
def sectorWriteTr (buf : List Nat) (sector : Nat) : List Ev :=
  wrenTr ++
    joinIter (fun block => joinIter (fun word => wordTr buf sector block word) 0 512) 0 64 ++
    wrdiTr ++ spiWaitTr

/-- The claimed full trace of `Flasher::write` over `k` regions. -/
def writeTr (buf : List Nat) (k : Nat) : List Ev :=
  joinIter (fun sector => sectorWriteTr buf sector) 0 k

/-- Trace of one block of `Flasher::erase`. -/
def eraseBlockTr (sector block : Nat) : List Ev :=
  wrenTr ++ enterTr ++ spiCmdTr 215 ++ spiWriteTr (sector % 256) ++
    spiWriteTr (block % 256) ++ spiWriteTr 0 ++ exitTr ++ spiWaitTr

/-- Trace of `readChunk n`. -/
def readChunkTr : Nat → List Ev
  | 0 => []
  | n + 1 => spiReadTr ++ readChunkTr n

/-- Trace of one region of `Flasher::read`. -/
def readSectorTr (sector : Nat) : List Ev :=
  wrdiTr ++ spiWaitTr ++ enterTr ++ spiCmdTr 11 ++ spiWriteTr (sector % 256) ++
    spiWriteTr 0 ++ spiWriteTr 0 ++ spiWriteTr 0 ++ readChunkTr 65536 ++ spiWaitTr

end Sim

/-! ## The EC-indirect SPI tools of `src/examples/isp.rs`

`SpiBus` drives the SPI chip through the `Smfi` port interface
(`flash_indar1`, `flash_read`, `flash_write`); its `data` flag tracks
whether the chip is in follow-data mode (`indar1 0xFD` enters it,
`indar1 0xFE` leaves it, and `reset` deasserts chip select by writing a
zero byte with data mode off).  `SpiRom` issues SPI opcodes over the bus.
The port is modelled as a recorder of port-bus accesses plus a stream of
bytes that reads return; port accesses themselves always succeed, so the
only failures are the early `InvalidInput` returns and exhausted poll
fuel (the source polls carry a `TODO: timeout`). -/

namespace Isp

/-- One port-bus access of the EC-indirect flash interface. -/
inductive PEv where
  | indar1 (data : Nat)
  | busW (bytes : List Nat)
  | busR (n : Nat)
deriving DecidableEq, Repr

/-- The bus state: the `SpiBus::data` flag, the recorded port accesses, and
the byte stream the flash returns to reads (`rdSeq` indexed by `rdIdx`). -/
structure SpiSt where
  dataMode : Bool
  events : List PEv
  rdSeq : Nat → Nat
  rdIdx : Nat

/-- Result of an isp.rs SPI operation (`serialport::Result`). -/
inductive SpiRes (α : Type) where
  | ok (a : α) (s : SpiSt)
  | err (s : SpiSt)

/-- SPI-tool computations over the modelled port. -/
def SpiM (α : Type) : Type := SpiSt → SpiRes α

instance : Monad SpiM where
  pure a := fun s => SpiRes.ok a s
  bind x g := fun s =>
    match x s with
    | SpiRes.ok a s1 => g a s1
    | SpiRes.err s1 => SpiRes.err s1

/-- An `Err(...)` early return (`InvalidInput`). -/
def spiErr {α : Type} : SpiM α := fun s => SpiRes.err s

/-- Read the `SpiBus::data` flag. -/
def getData : SpiM Bool := fun s => SpiRes.ok s.dataMode s

/-- Assign the `SpiBus::data` flag. -/
def setData (b : Bool) : SpiM Unit := fun s => SpiRes.ok () { s with dataMode := b }

/-- `Smfi::flash_indar1`: one write to the INDAR1 register. -/
def flash_indar1 (d : Nat) : SpiM Unit := fun s =>
  SpiRes.ok () { s with events := s.events ++ [PEv.indar1 d] }

/-- `Smfi::flash_write`: one data write to the INDDR port. -/
def flash_write (bytes : List Nat) : SpiM Unit := fun s =>
  SpiRes.ok () { s with events := s.events ++ [PEv.busW bytes] }

/-- `Smfi::flash_read` into a 1-byte buffer. -/
def flash_read1 : SpiM Nat := fun s =>
  SpiRes.ok (s.rdSeq s.rdIdx)
    { s with events := s.events ++ [PEv.busR 1], rdIdx := s.rdIdx + 1 }

/-- `Smfi::flash_read` into an `n`-byte buffer. -/
def flash_readN (n : Nat) : SpiM (List Nat) := fun s =>
  SpiRes.ok ((List.range n).map (fun j => s.rdSeq (s.rdIdx + j)))
    { s with events := s.events ++ [PEv.busR n], rdIdx := s.rdIdx + n }

/-- `SpiBus::reset` (isp.rs lines 154–162). -/
def bus_reset : SpiM Unit := do
  let d ← getData
  if d then do
    flash_indar1 254
    setData false
  flash_write [0]

/-- `SpiBus::write` (lines 173–180). -/
def bus_write (bytes : List Nat) : SpiM Unit := do
  let d ← getData
  if !d then do
    flash_indar1 253
    setData true
  flash_write bytes

/-- `SpiBus::read` into a 1-byte buffer (lines 164–171). -/
def bus_read1 : SpiM Nat := do
  let d ← getData
  if !d then do
    flash_indar1 253
    setData true
  flash_read1

/-- `SpiBus::read` into an `n`-byte buffer. -/
def bus_readN (n : Nat) : SpiM (List Nat) := do
  let d ← getData
  if !d then do
    flash_indar1 253
    setData true
  flash_readN n

/-- `SpiRom::status` (lines 198–206). -/
def rom_status : SpiM Nat := do
  bus_reset
  bus_write [5]
  bus_read1

/-- The unbounded `while self.status()? & .. {}` polls, embedded with fuel
(the source marks them `TODO: timeout`). -/
def statusPoll (again : Nat → Bool) : Nat → SpiM Unit
  | 0 => spiErr
  | f + 1 => do
    let v ← rom_status
    if again v then statusPoll again f else pure ()

/-- `SpiRom::write_disable` (lines 208–217). -/
def write_disable (f : Nat) : SpiM Unit := do
  bus_reset
  bus_write [4]
  statusPoll (fun v => decide (v &&& 3 ≠ 0)) f

/-- `SpiRom::write_enable` (lines 219–228). -/
def write_enable (f : Nat) : SpiM Unit := do
  bus_reset
  bus_write [6]
  statusPoll (fun v => decide (v &&& 3 ≠ 2)) f

/-- `SpiRom::erase_sector` (lines 246–270): the 24-bit address guard comes
before any bus access. -/
def erase_sector (f : Nat) (address : Nat) : SpiM Nat := do
  if address &&& 0xFF000000 > 0 then spiErr
  else do
    write_enable f
    bus_reset
    bus_write [215, (address >>> 16) % 256, (address >>> 8) % 256, address % 256]
    statusPoll (fun v => decide (v &&& 1 ≠ 0)) f
    write_disable f
    pure 1024

/-- `SpiRom::read_at` (lines 273–289) reading an `n`-byte buffer. -/
def read_at (f : Nat) (address : Nat) (n : Nat) : SpiM (List Nat) := do
  if address &&& 0xFF000000 > 0 then spiErr
  else do
    bus_reset
    bus_write [11, (address >>> 16) % 256, (address >>> 8) % 256, address % 256, 0]
    bus_readN n

/-- The word loop of `SpiRom::write_at` (lines 310–328):
`data.chunks_exact(2)`, the full 6-byte AAI command on chunk 0 and the
3-byte form afterwards, and a status poll after each word. -/
def writeWords (f : Nat) (address : Nat) : List Nat → Nat → SpiM Unit
  | [], _ => pure ()
  | [_], _ => pure ()
  | w0 :: w1 :: rest, i => do
    bus_reset
    if i = 0 then
      bus_write [173, (address >>> 16) % 256, (address >>> 8) % 256, address % 256,
        w0, w1]
    else
      bus_write [173, w0, w1]
    statusPoll (fun v => decide (v &&& 1 ≠ 0)) f
    writeWords f address rest (i + 1)

/-- `SpiRom::write_at` (lines 292–333): the 24-bit address guard, then the
even-length guard, both before any bus access. -/
def write_at (f : Nat) (address : Nat) (data : List Nat) : SpiM Nat := do
  if address &&& 0xFF000000 > 0 then spiErr
  else if data.length % 2 ≠ 0 then spiErr
  else do
    write_enable f
    writeWords f address data 0
    write_disable f
    pure data.length

/-- The final state of a run, successful or not. -/
def afterSt {α : Type} : SpiRes α → SpiSt
  | SpiRes.ok _ s => s
  | SpiRes.err s => s

/-- `impl Drop for SpiRom` (lines 336–340): `let _ = self.write_disable();`
— the attempt's result is discarded, so dropping always completes. -/
def dropSpiRom (f : Nat) : SpiM Unit := fun s =>
  match write_disable f s with
  | SpiRes.ok _ s1 => SpiRes.ok () s1
  | SpiRes.err s1 => SpiRes.ok () s1

/-- `impl Drop for SpiBus` (lines 183–187): `let _ = self.reset();`. -/
def dropSpiBus : SpiM Unit := fun s =>
  match bus_reset s with
  | SpiRes.ok _ s1 => SpiRes.ok () s1
  | SpiRes.err s1 => SpiRes.ok () s1

/-- A fresh bus state over a given read stream. -/
def initSpi (rd : Nat → Nat) : SpiSt :=
  { dataMode := false, events := [], rdSeq := rd, rdIdx := 0 }

/-- The post-erase verification loop of `isp_inner` (isp.rs lines 640–650):
the first byte differing from 0xFF aborts with an error naming the offset
and the byte read. -/
def verifyErase : List Nat → Nat → Except (Nat × Nat) Unit
  | [], _ => Except.ok ()
  | b :: rest, i =>
    if b ≠ 255 then Except.error (i, b)
    else verifyErase rest (i + 1)

end Isp

/-! ## The example flash flow of `src/examples/flash.rs` -/

namespace FlashMain

/-- Observable steps of the example `flash.rs` main flow after the
post-erase read-back: a logged mismatch line
(`"0x{:X}: 0x{:02X} != 0xFF"`), or the programming attempt. -/
inductive Step where
  | logMismatch (offset byte : Nat)
  | program
deriving DecidableEq, Repr

/-- flash.rs main, lines 59–69: every byte of the re-read image differing
from 0xFF is logged (`//TODO: retry erase on fail`), and then
`flasher.write(&data, …)` runs unconditionally. -/
def afterEraseRead (erased : List Nat) : List Step :=
  ((List.range erased.length).filterMap (fun i =>
    if erased.getD i 0 ≠ 255 then some (Step.logMismatch i (erased.getD i 0))
    else none)) ++ [Step.program]

end FlashMain

namespace Isp

/-- `isp_inner` after the erase and read-back: a verification failure
propagates as the function's error (no programming step); on success the
flow continues to the programming stage. -/
def afterEraseVerify (rom : List Nat) : Except (Nat × Nat) (List FlashMain.Step) :=
  match verifyErase rom 0 with
  | Except.error e => Except.error e
  | Except.ok () => Except.ok [FlashMain.Step.program]

end Isp

/-! ## Analysis of the rolling-match scanner -/

namespace EcFileNew

/-- One step of the match automaton of `get_str` while it is still searching
for the key: the new match position after reading byte `b` in position `i`.
States `≥ key.length` are absorbing (the scanner has switched to
accumulating). -/
def mstep (key : List Nat) (i b : Nat) : Nat :=
  if i < key.length then
    if b = key.getD i 0 then i + 1
    else if i = 0 then 0
    else if b = key.getD 0 0 then 1
    else 0
  else i

/-- Iterated `mstep` over a byte list. -/
def mrun (key : List Nat) (i : Nat) (l : List Nat) : Nat :=
  l.foldl (mstep key) i

/-- `key` occurs in `l` at position `p`. -/
def occursAt (key l : List Nat) (p : Nat) : Prop :=
  (l.drop p).take key.length = key

instance (key l : List Nat) (p : Nat) : Decidable (occursAt key l p) := by
  unfold occursAt; infer_instance

theorem mrun_nil (key : List Nat) (i : Nat) : mrun key i [] = i := rfl

theorem mrun_cons (key : List Nat) (i b : Nat) (l : List Nat) :
    mrun key i (b :: l) = mrun key (mstep key i b) l := rfl

theorem mrun_append (key : List Nat) (i : Nat) (l₁ l₂ : List Nat) :
    mrun key i (l₁ ++ l₂) = mrun key (mrun key i l₁) l₂ :=
  List.foldl_append _ _ _ _

/-- One unfolding of `getStrGo` on a byte, phrased through `mstep` for the
searching phase. -/
theorem getStrGo_cons (key : List Nat) (i : Nat) (acc : List Nat) (b : Nat)
    (rest : List Nat) :
    getStrGo key i acc (b :: rest) =
      if i < key.length then getStrGo key (mstep key i b) acc rest
      else if b = 36 then acc
      else getStrGo key i (acc ++ [b]) rest := by
  conv_lhs => rw [getStrGo]
  by_cases hi : i < key.length
  · rw [if_pos hi, if_pos hi]
    unfold mstep
    rw [if_pos hi]
    by_cases h1 : b = key.getD i 0
    · rw [if_pos h1, if_pos h1]
    · rw [if_neg h1, if_neg h1]
      by_cases h2 : i = 0
      · rw [if_pos h2, if_pos h2]
      · rw [if_neg h2, if_neg h2]
        by_cases h3 : b = key.getD 0 0
        · rw [if_pos h3, if_pos h3]
        · rw [if_neg h3, if_neg h3]
  · rw [if_neg hi, if_neg hi]

theorem mstep_le (key : List Nat) (i b : Nat) (h : i ≤ key.length) :
    mstep key i b ≤ key.length := by
  unfold mstep
  split
  · split
    · omega
    · split
      · omega
      · split <;> omega
  · exact h

theorem mrun_le (key : List Nat) (l : List Nat) :
    ∀ i, i ≤ key.length → mrun key i l ≤ key.length := by
  induction l with
  | nil => intro i h; simpa [mrun_nil] using h
  | cons b l ih =>
    intro i h
    rw [mrun_cons]
    exact ih _ (mstep_le key i b h)

/-- While every intermediate match state stays strictly below `key.length`,
`getStrGo` behaves exactly as the pure automaton `mrun`: the accumulator is
untouched and the final state is `mrun key i l`. -/
theorem run_append (key : List Nat) (l : List Nat) :
    ∀ (i : Nat) (acc rest : List Nat),
      (∀ n, n < l.length → mrun key i (l.take n) < key.length) →
      getStrGo key i acc (l ++ rest) = getStrGo key (mrun key i l) acc rest := by
  induction l with
  | nil => intro i acc rest _; simp [mrun_nil]
  | cons b l ih =>
    intro i acc rest h
    have hi : i < key.length := by
      have := h 0 (by simp)
      simpa [mrun_nil] using this
    have hstep : ∀ n, n < l.length →
        mrun key (mstep key i b) (l.take n) < key.length := by
      intro n hn
      have := h (n + 1) (by simpa using Nat.succ_lt_succ hn)
      simpa [List.take_succ_cons, mrun_cons] using this
    have hrec := ih (mstep key i b) acc rest hstep
    rw [mrun_cons, List.cons_append, getStrGo_cons, if_pos hi]
    exact hrec

theorem take_succ_getD (l : List Nat) (j : Nat) (h : j < l.length) :
    l.take (j + 1) = l.take j ++ [l.getD j 0] := by
  have h1 : l[j]? = some l[j] := List.getElem?_eq_getElem h
  have h2 : l.getD j 0 = l[j] := by
    rw [List.getD_eq_getElem?_getD, h1]; rfl
  rw [List.take_succ, h1, h2]
  rfl

/-- The match-state invariant: the state reached from 0 always corresponds to
a contiguous suffix of the input read so far, as long as the automaton has
never reached the accepting state on a proper prefix. -/
theorem state_tracks_suffix (key : List Nat) :
    ∀ l : List Nat,
      (∀ n, n < l.length → mrun key 0 (l.take n) < key.length) →
      ∃ u, u ++ key.take (mrun key 0 l) = l := by
  intro l
  induction l using List.reverseRecOn with
  | nil => intro _; exact ⟨[], by simp [mrun_nil]⟩
  | append_singleton l b ih =>
    intro h
    have htk : ∀ n, n ≤ l.length → (l ++ [b]).take n = l.take n := by
      intro n hn
      rw [List.take_append_eq_append_take]
      have : n - l.length = 0 := by omega
      simp [this]
    have hl : ∀ n, n < l.length → mrun key 0 (l.take n) < key.length := by
      intro n hn
      have := h n (by simp; omega)
      rwa [htk n (le_of_lt hn)] at this
    obtain ⟨u, hu⟩ := ih hl
    have hj : mrun key 0 l < key.length := by
      have h0 := h l.length (by simp)
      rw [htk l.length le_rfl, List.take_length] at h0
      exact h0
    set j := mrun key 0 l with hjdef
    have hrun : mrun key 0 (l ++ [b]) = mstep key j b := by
      rw [mrun_append]; rfl
    rw [hrun]
    by_cases h1 : b = key.getD j 0
    · refine ⟨u, ?_⟩
      have hst : mstep key j b = j + 1 := by
        unfold mstep; rw [if_pos hj, if_pos h1]
      rw [hst, take_succ_getD key j hj, ← h1, ← List.append_assoc, hu]
    · by_cases h2 : j = 0
      · refine ⟨l ++ [b], ?_⟩
        have hst : mstep key j b = 0 := by
          unfold mstep; rw [if_pos hj, if_neg h1, if_pos h2]
        simp [hst]
      · by_cases h3 : b = key.getD 0 0
        · refine ⟨l, ?_⟩
          have hst : mstep key j b = 1 := by
            unfold mstep; rw [if_pos hj, if_neg h1, if_neg h2, if_pos h3]
          have hk0 : 0 < key.length := by omega
          rw [hst, take_succ_getD key 0 hk0]
          simp [h3]
        · refine ⟨l ++ [b], ?_⟩
          have hst : mstep key j b = 0 := by
            unfold mstep; rw [if_pos hj, if_neg h1, if_neg h2, if_neg h3]
          simp [hst]

theorem take_append_self (t r : List Nat) : (t ++ r).take t.length = t := by
  rw [List.take_append_eq_append_take]
  simp

/-- If the automaton reaches the accepting state after reading `n` bytes of
`l`, then `key` occurs somewhere in those first `n` bytes. -/
theorem hit_occurs (key : List Nat) (l : List Nat) :
    ∀ n, n ≤ l.length → mrun key 0 (l.take n) = key.length →
      ∃ p, p + key.length ≤ n ∧ occursAt key l p := by
  intro n
  induction n using Nat.strong_induction_on with
  | _ n ih =>
    intro hn hacc
    by_cases hall : ∀ m, m < n → mrun key 0 (l.take m) < key.length
    · have hpre : ∀ m, m < (l.take n).length →
          mrun key 0 ((l.take n).take m) < key.length := by
        intro m hm
        rw [List.take_take]
        have hmn : m < n := by
          have := (List.length_take n l) ▸ hm
          omega
        rw [Nat.min_eq_left (le_of_lt hmn)]
        exact hall m hmn
      obtain ⟨u, hu⟩ := state_tracks_suffix key (l.take n) hpre
      rw [hacc, List.take_length] at hu
      refine ⟨u.length, ?_, ?_⟩
      · have := congrArg List.length hu
        simp [List.length_take] at this
        omega
      · unfold occursAt
        have hdrop : l.drop u.length = key ++ l.drop n := by
          have hlsplit : l = l.take n ++ l.drop n := (List.take_append_drop n l).symm
          calc l.drop u.length = (l.take n ++ l.drop n).drop u.length := by
                rw [← hlsplit]
            _ = ((u ++ key) ++ l.drop n).drop u.length := by rw [hu]
            _ = (u ++ (key ++ l.drop n)).drop u.length := by rw [List.append_assoc]
            _ = key ++ l.drop n := List.drop_left u (key ++ l.drop n)
        rw [hdrop]
        exact take_append_self key (l.drop n)
    · push_neg at hall
      obtain ⟨m, hm, hge⟩ := hall
      have hmle : mrun key 0 (l.take m) ≤ key.length :=
        mrun_le key (l.take m) 0 (Nat.zero_le _)
      have heq : mrun key 0 (l.take m) = key.length := le_antisymm hmle hge
      obtain ⟨p, hp, hocc⟩ := ih m hm (le_trans (le_of_lt hm) hn) heq
      exact ⟨p, le_trans hp (le_of_lt hm), hocc⟩

/-- Once the key has been fully matched, the scanner accumulates bytes up to
the first `$`. -/
theorem run_accumulate (key : List Nat) (i : Nat) (hi : key.length ≤ i) :
    ∀ (X : List Nat) (acc post : List Nat), 36 ∉ X →
      getStrGo key i acc (X ++ 36 :: post) = acc ++ X := by
  intro X
  induction X with
  | nil =>
    intro acc post _
    have hni : ¬ i < key.length := by omega
    show getStrGo key i acc (36 :: post) = acc ++ []
    rw [getStrGo_cons, if_neg hni, if_pos rfl, List.append_nil]
  | cons x X ih =>
    intro acc post hX
    have hx : ¬ x = 36 := by
      intro h; exact hX (by simp [h])
    have hX' : 36 ∉ X := by
      intro h; exact hX (by simp [h])
    have hni : ¬ i < key.length := by omega
    rw [List.cons_append, getStrGo_cons, if_neg hni, if_neg hx,
      ih (acc ++ [x]) post hX']
    simp

theorem getStrGo_nil (key : List Nat) (i : Nat) (acc : List Nat) :
    getStrGo key i acc [] = acc := rfl

/-- If no occurrence of the key fits inside the first `n` bytes of `l`, the
scanner is still searching after reading them. -/
theorem states_lt (key l : List Nat) (n : Nat) (hn : n ≤ l.length)
    (hno : ∀ p, p + key.length ≤ n → ¬ occursAt key l p) :
    mrun key 0 (l.take n) < key.length := by
  by_contra hge
  have hle := mrun_le key (l.take n) 0 (Nat.zero_le _)
  have heq : mrun key 0 (l.take n) = key.length := by omega
  obtain ⟨p, hp, hocc⟩ := hit_occurs key l n hn heq
  exact hno p hp hocc

theorem take_of_append_le (a b : List Nat) (n : Nat) (hn : n ≤ a.length) :
    (a ++ b).take n = a.take n := by
  rw [List.take_append_eq_append_take]
  have : n - a.length = 0 := by omega
  simp [this]

end EcFileNew

/-! ## The older and newer scanners compared -/

namespace EcFileOld

/-- One unfolding of the older `getStrGo` on a byte. -/
theorem old_getStrGo_cons (key : List Nat) (i : Nat) (acc : List Nat) (b : Nat)
    (rest : List Nat) :
    getStrGo key i acc (b :: rest) =
      if i < key.length then
        if b = key.getD i 0 then getStrGo key (i + 1) acc rest
        else getStrGo key 0 acc rest
      else if b = 36 then acc
      else getStrGo key i (acc ++ [b]) rest := by
  conv_lhs => rw [getStrGo]

theorem old_getStrGo_nil (key : List Nat) (i : Nat) (acc : List Nat) :
    getStrGo key i acc [] = acc := rfl

end EcFileOld

/-- Once both scanners are in the accumulating phase they agree on every
input. -/
theorem old_new_agree_acc (key : List Nat) :
    ∀ (data : List Nat) (i : Nat) (acc : List Nat), key.length ≤ i →
      EcFileOld.getStrGo key i acc data = EcFileNew.getStrGo key i acc data := by
  intro data
  induction data with
  | nil => intro i acc _; rfl
  | cons b rest ih =>
    intro i acc hi
    have hni : ¬ i < key.length := by omega
    rw [EcFileOld.old_getStrGo_cons, EcFileNew.getStrGo_cons, if_neg hni, if_neg hni]
    by_cases hb : b = 36
    · rw [if_pos hb, if_pos hb]
    · rw [if_neg hb, if_neg hb, ih i (acc ++ [b]) hi]

theorem count_cons_ge (c b : Nat) (l : List Nat) :
    l.count c ≤ (b :: l).count c := by
  by_cases hb : b = c
  · subst hb; rw [List.count_cons_self]; omega
  · rw [List.count_cons_of_ne (fun h => hb h.symm)]

theorem count_cons_self_eq (c : Nat) (l : List Nat) :
    (c :: l).count c = l.count c + 1 :=
  List.count_cons_self c l

/-- As long as the first key byte occurs at most once in the remaining input
(counting one occurrence as already consumed when the match position is
positive), the older and the newer scanner agree: the only behavioural
difference between them is the re-check of a mismatching byte against
`key[0]`. -/
theorem old_new_agree (key : List Nat) :
    ∀ (data : List Nat) (i : Nat) (acc : List Nat),
      data.count (key.getD 0 0) + (if i = 0 then 0 else 1) ≤ 1 →
      EcFileOld.getStrGo key i acc data = EcFileNew.getStrGo key i acc data := by
  intro data
  induction data with
  | nil => intro i acc _; rfl
  | cons b rest ih =>
    intro i acc hcnt
    by_cases hi : i < key.length
    · rw [EcFileOld.old_getStrGo_cons, EcFileNew.getStrGo_cons, if_pos hi, if_pos hi]
      by_cases h1 : b = key.getD i 0
      · rw [if_pos h1]
        have hst : EcFileNew.mstep key i b = i + 1 := by
          unfold EcFileNew.mstep; rw [if_pos hi, if_pos h1]
        rw [hst]
        apply ih
        have hcr : rest.count (key.getD 0 0) = 0 := by
          by_cases h2 : i = 0
          · have hb0 : b = key.getD 0 0 := by rw [h1, h2]
            rw [if_pos h2] at hcnt
            have h5 : (b :: rest).count (key.getD 0 0) =
                rest.count (key.getD 0 0) + 1 := by
              conv_lhs => rw [hb0]
              exact count_cons_self_eq _ _
            omega
          · rw [if_neg h2] at hcnt
            have := count_cons_ge (key.getD 0 0) b rest
            omega
        rw [hcr, if_neg (by omega : ¬ i + 1 = 0)]
      · rw [if_neg h1]
        by_cases h2 : i = 0
        · have hst : EcFileNew.mstep key i b = 0 := by
            unfold EcFileNew.mstep; rw [if_pos hi, if_neg h1, if_pos h2]
          rw [hst]
          apply ih
          have := count_cons_ge (key.getD 0 0) b rest
          rw [if_pos h2] at hcnt
          rw [if_pos rfl]
          omega
        · rw [if_neg h2] at hcnt
          have hc0 : (b :: rest).count (key.getD 0 0) = 0 := by omega
          have h3 : ¬ b = key.getD 0 0 := by
            intro hb
            have h5 : (b :: rest).count (key.getD 0 0) =
                rest.count (key.getD 0 0) + 1 := by
              conv_lhs => rw [hb]
              exact count_cons_self_eq _ _
            omega
          have hst : EcFileNew.mstep key i b = 0 := by
            unfold EcFileNew.mstep; rw [if_pos hi, if_neg h1, if_neg h2, if_neg h3]
          rw [hst]
          apply ih
          have := count_cons_ge (key.getD 0 0) b rest
          rw [if_pos rfl]
          omega
    · exact old_new_agree_acc key (b :: rest) i acc (by omega)

namespace EcFileNew

/-- If a key never occurs in the data, the scan never leaves the searching
phase and returns the empty accumulator. -/
theorem get_str_no_occurrence (key data : List Nat)
    (h : ∀ p, p < data.length → ¬ occursAt key data p) :
    get_str key data = [] := by
  have hstates : ∀ n, n < data.length → mrun key 0 (data.take n) < key.length := by
    intro n hn
    apply states_lt key data n (le_of_lt hn)
    intro p hp hocc
    exact h p (by omega) hocc
  have hrun := run_append key data 0 [] [] hstates
  rw [List.append_nil] at hrun
  unfold get_str
  rw [hrun, getStrGo_nil]

end EcFileNew

/-- Claim C8: for every byte sequence containing exactly one occurrence of
the substring `"PRJ:"`, followed by a `$`-free value `X` and then `$`, the
file-backed binding's `project()` returns `X`.  The single-forward-pass
scanner with its rolling match position (reset and re-check on mismatch)
finds the key even after a near-match such as `"PRPRJ:X$"`: the hypothesis
only requires uniqueness of the occurrence, not that the prefix is free of
partial matches. -/
theorem claim_C8 (pre X post : List Nat) (hX : 36 ∉ X)
    (hu : ∀ p, p < (pre ++ EcFileNew.prjKey ++ X ++ 36 :: post).length →
      EcFileNew.occursAt EcFileNew.prjKey
        (pre ++ EcFileNew.prjKey ++ X ++ 36 :: post) p → p = pre.length) :
    EcFileNew.project (pre ++ EcFileNew.prjKey ++ X ++ 36 :: post) = X := by
  classical
  revert hu
  generalize hg : pre ++ EcFileNew.prjKey ++ X ++ 36 :: post = inp
  intro hu
  have hklen : EcFileNew.prjKey.length = 4 := rfl
  have hassoc : inp = (pre ++ EcFileNew.prjKey) ++ (X ++ 36 :: post) := by
    rw [← hg, List.append_assoc]
  have hlen : (pre ++ EcFileNew.prjKey).length = pre.length + 4 := by
    simp [EcFileNew.prjKey]
  have hinlen : pre.length + 4 ≤ inp.length := by
    rw [hassoc, List.length_append, hlen]
    omega
  have hstates : ∀ n, n < pre.length + 4 →
      EcFileNew.mrun EcFileNew.prjKey 0 (inp.take n) < EcFileNew.prjKey.length := by
    intro n hn
    apply EcFileNew.states_lt EcFileNew.prjKey inp n (by omega)
    intro p hp hocc
    rw [hklen] at hp
    have hpin : p < inp.length := by omega
    have := hu p hpin hocc
    omega
  have hstates2 : ∀ n, n < (pre ++ EcFileNew.prjKey).length →
      EcFileNew.mrun EcFileNew.prjKey 0 ((pre ++ EcFileNew.prjKey).take n) <
        EcFileNew.prjKey.length := by
    intro n hn
    rw [hlen] at hn
    have htk : (pre ++ EcFileNew.prjKey).take n = inp.take n := by
      rw [hassoc]
      exact (EcFileNew.take_of_append_le (pre ++ EcFileNew.prjKey)
        (X ++ 36 :: post) n (by rw [hlen]; omega)).symm
    rw [htk]
    exact hstates n hn
  have hrun := EcFileNew.run_append EcFileNew.prjKey (pre ++ EcFileNew.prjKey)
    0 [] (X ++ 36 :: post) hstates2
  have hj : EcFileNew.mrun EcFileNew.prjKey 0 pre < 4 := by
    have h1 := hstates pre.length (by omega)
    have htp : inp.take pre.length = pre := by
      have hassoc2 : inp = pre ++ (EcFileNew.prjKey ++ (X ++ 36 :: post)) := by
        rw [← hg]
        simp [List.append_assoc]
      rw [hassoc2]
      exact EcFileNew.take_append_self pre _
    rw [htp, hklen] at h1
    exact h1
  have hfour : EcFileNew.mrun EcFileNew.prjKey
      (EcFileNew.mrun EcFileNew.prjKey 0 pre) EcFileNew.prjKey = 4 := by
    set j := EcFileNew.mrun EcFileNew.prjKey 0 pre with hjdef
    clear_value j
    interval_cases j <;> decide
  have hm : EcFileNew.mrun EcFileNew.prjKey 0 (pre ++ EcFileNew.prjKey) = 4 := by
    rw [EcFileNew.mrun_append]
    exact hfour
  calc EcFileNew.project inp
      = EcFileNew.getStrGo EcFileNew.prjKey 0 [] inp := rfl
    _ = EcFileNew.getStrGo EcFileNew.prjKey 0 []
          ((pre ++ EcFileNew.prjKey) ++ (X ++ 36 :: post)) := by rw [← hassoc]
    _ = EcFileNew.getStrGo EcFileNew.prjKey
          (EcFileNew.mrun EcFileNew.prjKey 0 (pre ++ EcFileNew.prjKey)) []
          (X ++ 36 :: post) := hrun
    _ = EcFileNew.getStrGo EcFileNew.prjKey 4 [] (X ++ 36 :: post) := by rw [hm]
    _ = [] ++ X := EcFileNew.run_accumulate EcFileNew.prjKey 4 (by rw [hklen]) X [] post hX
    _ = X := by simp

/-- Witness for C8, on the near-match input `"PRPRJ:X$"` highlighted by the
claim: the partial match `"PR"` restarts and the key is still found. -/
theorem claim_C8_witness :
    (36 ∉ ([88] : List Nat)) ∧
      EcFileNew.project [80, 82, 80, 82, 74, 58, 88, 36] = [88] := by
  refine ⟨by decide, ?_⟩
  exact claim_C8 [80, 82] [88] [] (by decide) (by decide)

/-- Counterexample for C9 as frozen: on the input `"PRPRJ:X$"` the current
file-backed binding finds the key (its mismatch handling re-checks the
failing byte against `key[0]`), while the historical draft consumes the
byte and misses the occurrence; `project()` differs. -/
theorem claim_C9_counterexample :
    EcFileOld.project [80, 82, 80, 82, 74, 58, 88, 36] = [] ∧
      EcFileNew.project [80, 82, 80, 82, 74, 58, 88, 36] = [88] ∧
      EcFileOld.project [80, 82, 80, 82, 74, 58, 88, 36] ≠
        EcFileNew.project [80, 82, 80, 82, 74, 58, 88, 36] := by
  refine ⟨by decide, by decide, by decide⟩

/-- Claim C9 (amended): the historical draft and the current file-backed
binding agree at the query interface on every input in which the first key
byte occurs at most once (byte 80, `P`, for `project()`; byte 86, `V`, for
`version()`); on inputs with an overlapping near-match such as `"PRPRJ:X$"`
they differ, the current binding finding the key and the draft missing it. -/
theorem claim_C9 (data : List Nat) :
    (data.count 80 ≤ 1 → EcFileOld.project data = EcFileNew.project data) ∧
    (data.count 86 ≤ 1 → EcFileOld.version data = EcFileNew.version data) := by
  constructor
  · intro h
    unfold EcFileOld.project EcFileNew.project EcFileOld.get_str EcFileNew.get_str
    apply old_new_agree
    rw [if_pos rfl]
    have hkey : EcFileNew.prjKey.getD 0 0 = 80 := rfl
    rw [hkey]
    omega
  · intro h
    unfold EcFileOld.version EcFileNew.version
    congr 1
    unfold EcFileOld.get_str EcFileNew.get_str
    apply old_new_agree
    rw [if_pos rfl]
    have hkey : EcFileNew.verKey.getD 0 0 = 86 := rfl
    rw [hkey]
    omega

/-- Witness for C9 on the image fragment `"PRJ:A$"`. -/
theorem claim_C9_witness :
    ([80, 82, 74, 58, 65, 36] : List Nat).count 80 ≤ 1 ∧
      EcFileOld.project [80, 82, 74, 58, 65, 36] =
        EcFileNew.project [80, 82, 74, 58, 65, 36] ∧
      EcFileOld.version [80, 82, 74, 58, 65, 36] =
        EcFileNew.version [80, 82, 74, 58, 65, 36] :=
  ⟨by decide, (claim_C9 [80, 82, 74, 58, 65, 36]).1 (by decide),
    (claim_C9 [80, 82, 74, 58, 65, 36]).2 (by decide)⟩

/-- Claim C10: if `"PRJ:"` does not occur in the image, `project()` returns
the empty string, and if `"VER:"` does not occur, `version()` returns the
empty string.  Both operations are total Lean functions returning a plain
byte list — faithful to the Rust methods, which return `String` and have no
error path. -/
theorem claim_C10 (data : List Nat) :
    ((∀ p, p < data.length →
        ¬ EcFileNew.occursAt EcFileNew.prjKey data p) →
      EcFileNew.project data = []) ∧
    ((∀ p, p < data.length →
        ¬ EcFileNew.occursAt EcFileNew.verKey data p) →
      EcFileNew.version data = []) := by
  constructor
  · intro h
    exact EcFileNew.get_str_no_occurrence EcFileNew.prjKey data h
  · intro h
    unfold EcFileNew.version
    rw [EcFileNew.get_str_no_occurrence EcFileNew.verKey data h]
    rfl

/-- Witness for C10 on a keyless image. -/
theorem claim_C10_witness :
    EcFileNew.project [1, 2, 3] = [] ∧ EcFileNew.version [1, 2, 3] = [] :=
  ⟨(claim_C10 [1, 2, 3]).1 (by decide), (claim_C10 [1, 2, 3]).2 (by decide)⟩

namespace EcChannel

/-- The counter of the busy-wait loop reaches zero exactly when the polled
condition is false at every one of the first `t` status reads. -/
theorem waitLoop_zero_iff (cond : Nat → Bool) (sts : Nat → Nat) :
    ∀ (t i : Nat),
      ((waitLoop cond sts i t).1 = 0 ↔ ¬ ∃ k, k < t ∧ cond (sts (i + k)) = true) := by
  intro t
  induction t with
  | zero =>
    intro i
    simp [waitLoop]
  | succ t ih =>
    intro i
    by_cases hc : cond (sts i) = true
    · have h0 : cond (sts (i + 0)) = true := by simpa using hc
      simp only [waitLoop, if_pos hc]
      constructor
      · intro h; omega
      · intro h
        exact absurd ⟨0, by omega, h0⟩ h
    · simp only [waitLoop, if_neg hc]
      rw [ih (i + 1)]
      constructor
      · intro h hex
        obtain ⟨k, hk, hck⟩ := hex
        match k with
        | 0 => exact hc (by simpa using hck)
        | k + 1 =>
          exact h ⟨k, by omega, by
            have : i + 1 + k = i + (k + 1) := by omega
            rw [this]; exact hck⟩
      · intro h hex
        obtain ⟨k, hk, hck⟩ := hex
        refine h ⟨k + 1, by omega, ?_⟩
        have : i + (k + 1) = i + 1 + k := by omega
        rw [this]; exact hck

/-- The success condition of the shared wait loop: the busy-spin returns
`Ok` exactly when the condition holds at one of the first `t` polls. -/
theorem wait_ok_iff (cond : Nat → Bool) (sts : Nat → Nat) (i t : Nat) :
    (if (waitLoop cond sts i t).1 = 0 then (Except.error () : Except Unit Unit)
        else Except.ok ()) = Except.ok () ↔
      ∃ k, k < t ∧ cond (sts (i + k)) = true := by
  by_cases h0 : (waitLoop cond sts i t).1 = 0
  · rw [if_pos h0]
    rw [waitLoop_zero_iff cond sts t i] at h0
    constructor
    · intro h; exact absurd h (by simp)
    · intro h; exact absurd h h0
  · rw [if_neg h0]
    have hex : ∃ k, k < t ∧ cond (sts (i + k)) = true := by
      by_contra hc
      exact h0 ((waitLoop_zero_iff cond sts t i).mpr hc)
    exact ⟨fun _ => hex, fun _ => rfl⟩

theorem wait_read_ok_iff (sts : Nat → Nat) (i t : Nat) :
    (wait_read sts i t).1 = Except.ok () ↔
      ∃ k, k < t ∧ canRead (sts (i + k)) = true :=
  wait_ok_iff canRead sts i t

theorem wait_write_ok_iff (sts : Nat → Nat) (i t : Nat) :
    (wait_write sts i t).1 = Except.ok () ↔
      ∃ k, k < t ∧ canWrite (sts (i + k)) = true :=
  wait_ok_iff canWrite sts i t

/-- The wait functions fail exactly when the loop counter reached zero. -/
theorem wait_err_iff (cond : Nat → Bool) (sts : Nat → Nat) (i t : Nat) :
    (if (waitLoop cond sts i t).1 = 0 then (Except.error () : Except Unit Unit)
        else Except.ok ()) = Except.error () ↔ (waitLoop cond sts i t).1 = 0 := by
  by_cases h0 : (waitLoop cond sts i t).1 = 0
  · rw [if_pos h0]
    exact ⟨fun _ => h0, fun _ => rfl⟩
  · rw [if_neg h0]
    exact ⟨fun h => absurd h (by simp), fun h => absurd h h0⟩

theorem wait_read_err_iff (sts : Nat → Nat) (i t : Nat) :
    (wait_read sts i t).1 = Except.error () ↔ (waitLoop canRead sts i t).1 = 0 :=
  wait_err_iff canRead sts i t

theorem wait_write_err_iff (sts : Nat → Nat) (i t : Nat) :
    (wait_write sts i t).1 = Except.error () ↔ (waitLoop canWrite sts i t).1 = 0 :=
  wait_err_iff canWrite sts i t

theorem read_ok_iff (sts : Nat → Nat) (i : Nat) :
    isOkE (read sts i) = true ↔ (wait_read sts i TIMEOUT).1 = Except.ok () := by
  unfold read
  rcases hw : wait_read sts i TIMEOUT with ⟨r1, i1⟩
  cases r1 with
  | error e => cases e; simp [isOkE]
  | ok a => cases a; simp [isOkE]

theorem cmd_ok_iff (sts : Nat → Nat) (i : Nat) :
    isOkE (cmd sts i) = true ↔
      ((wait_write sts i TIMEOUT).1 = Except.ok () ∧
        (wait_write sts (wait_write sts i TIMEOUT).2 TIMEOUT).1 = Except.ok ()) := by
  unfold cmd
  rcases hw : wait_write sts i TIMEOUT with ⟨r1, i1⟩
  cases r1 with
  | error e => cases e; simp [isOkE]
  | ok a =>
    cases a
    rcases hw2 : wait_write sts i1 TIMEOUT with ⟨r2, i2⟩
    cases r2 with
    | error e => cases e; simp [isOkE, hw2]
    | ok a => cases a; simp [isOkE, hw2]

theorem write_ok_iff (sts : Nat → Nat) (i : Nat) :
    isOkE (write sts i) = true ↔
      ((wait_write sts i TIMEOUT).1 = Except.ok () ∧
        (wait_write sts (wait_write sts i TIMEOUT).2 TIMEOUT).1 = Except.ok ()) := by
  unfold write
  rcases hw : wait_write sts i TIMEOUT with ⟨r1, i1⟩
  cases r1 with
  | error e => cases e; simp [isOkE]
  | ok a =>
    cases a
    rcases hw2 : wait_write sts i1 TIMEOUT with ⟨r2, i2⟩
    cases r2 with
    | error e => cases e; simp [isOkE, hw2]
    | ok a => cases a; simp [isOkE, hw2]

end EcChannel

/-- Claim C7: for every budget `t` and every sequence of status-port values,
`wait_read t` (resp. `wait_write t`) busy-spins decrementing a counter
starting at `t` while the required condition (bit 0 set for read, bit 1
clear for write) is false, returns a timeout error exactly when the counter
reaches zero, and returns `Ok` otherwise — equivalently, succeeds exactly
when the condition holds at one of the first `t` polls; and the default
budget used by `cmd`, `read` and `write` is `TIMEOUT = 100000` polls. -/
theorem claim_C7 (sts : Nat → Nat) (i t : Nat) :
    ((EcChannel.wait_read sts i t).1 = Except.ok () ↔
      ∃ k, k < t ∧ EcChannel.canRead (sts (i + k)) = true) ∧
    ((EcChannel.wait_read sts i t).1 = Except.error () ↔
      (EcChannel.waitLoop EcChannel.canRead sts i t).1 = 0) ∧
    ((EcChannel.waitLoop EcChannel.canRead sts i t).1 = 0 ↔
      ¬ ∃ k, k < t ∧ EcChannel.canRead (sts (i + k)) = true) ∧
    ((EcChannel.wait_write sts i t).1 = Except.ok () ↔
      ∃ k, k < t ∧ EcChannel.canWrite (sts (i + k)) = true) ∧
    ((EcChannel.wait_write sts i t).1 = Except.error () ↔
      (EcChannel.waitLoop EcChannel.canWrite sts i t).1 = 0) ∧
    ((EcChannel.waitLoop EcChannel.canWrite sts i t).1 = 0 ↔
      ¬ ∃ k, k < t ∧ EcChannel.canWrite (sts (i + k)) = true) ∧
    EcChannel.TIMEOUT = 100000 ∧
    (EcChannel.isOkE (EcChannel.read sts i) = true ↔
      ∃ k, k < 100000 ∧ EcChannel.canRead (sts (i + k)) = true) ∧
    (EcChannel.isOkE (EcChannel.cmd sts i) = true ↔
      ((EcChannel.wait_write sts i EcChannel.TIMEOUT).1 = Except.ok () ∧
        (EcChannel.wait_write sts (EcChannel.wait_write sts i EcChannel.TIMEOUT).2
          EcChannel.TIMEOUT).1 = Except.ok ())) ∧
    (EcChannel.isOkE (EcChannel.write sts i) = true ↔
      ((EcChannel.wait_write sts i EcChannel.TIMEOUT).1 = Except.ok () ∧
        (EcChannel.wait_write sts (EcChannel.wait_write sts i EcChannel.TIMEOUT).2
          EcChannel.TIMEOUT).1 = Except.ok ())) := by
  refine ⟨EcChannel.wait_read_ok_iff sts i t,
    EcChannel.wait_read_err_iff sts i t,
    EcChannel.waitLoop_zero_iff EcChannel.canRead sts t i,
    EcChannel.wait_write_ok_iff sts i t,
    EcChannel.wait_write_err_iff sts i t,
    EcChannel.waitLoop_zero_iff EcChannel.canWrite sts t i,
    rfl, ?_,
    EcChannel.cmd_ok_iff sts i,
    EcChannel.write_ok_iff sts i⟩
  rw [EcChannel.read_ok_iff sts i]
  exact EcChannel.wait_read_ok_iff sts i EcChannel.TIMEOUT

namespace Sim

theorem bind_apply {α β : Type} (x : EcM α) (g : α → EcM β) (s : SimEc) :
    (x >>= g) s =
      match x s with
      | EcRes.ok a s1 => g a s1
      | EcRes.err s1 => EcRes.err s1 := rfl

theorem pure_apply {α : Type} (a : α) (s : SimEc) :
    (pure a : EcM α) s = EcRes.ok a s := rfl

theorem bind_ok {α β : Type} {x : EcM α} {g : α → EcM β} {s s1 : SimEc} {v : α}
    (h : x s = EcRes.ok v s1) : (x >>= g) s = g v s1 := by
  rw [bind_apply, h]

theorem land_0_1 : 0 &&& 1 = 0 := rfl

theorem land_2_1 : 2 &&& 1 = 0 := rfl

theorem land_0_3 : 0 &&& 3 = 0 := rfl

theorem land_2_3 : 2 &&& 3 = 2 := rfl

theorem land_0_2 : 0 &&& 2 = 0 := rfl

theorem land_2_2 : 2 &&& 2 = 2 := rfl

theorem spi_wait_run (f : Nat) (fl : List Nat) (fo w : Bool) (aai : Option Nat)
    (d : Decode) (tr : List Ev) :
    spi_wait (f + 1) (mkSt fl fo w aai d tr) =
      EcRes.ok () (mkSt fl false w aai Decode.idle (tr ++ spiWaitTr)) := by
  cases w <;>
    simp [spi_wait, enter_follow_mode, exit_follow_mode, spi_cmd, spiPoll, spi_read,
      ecCmd, ecRead, ecStep, devCmd, devDat, devRead, devFinish, statusByte, tick,
      bind_apply, pure_apply, mkSt, spiWaitTr, enterTr, spiCmdTr, spiReadTr, exitTr]

theorem spi_write_enable_run (f : Nat) (fl : List Nat) (fo w : Bool)
    (aai : Option Nat) (d : Decode) (tr : List Ev) :
    spi_write_enable (f + 1) (mkSt fl fo w aai d tr) =
      EcRes.ok () (mkSt fl false true aai Decode.idle (tr ++ wrenTr)) := by
  cases w <;>
    simp [spi_write_enable, spi_wait, enter_follow_mode, exit_follow_mode, spi_cmd,
      spiPoll, spi_read, ecCmd, ecRead, ecStep, devCmd, devDat, devRead, devFinish,
      statusByte, tick, bind_apply, pure_apply, land_0_1, land_2_1, land_0_3, land_2_3, land_0_2, land_2_2, mkSt, wrenTr, spiWaitTr, enterTr,
      spiCmdTr, spiReadTr, exitTr]

theorem spi_write_disable_run (f : Nat) (fl : List Nat) (fo w : Bool)
    (aai : Option Nat) (d : Decode) (tr : List Ev) :
    spi_write_disable (f + 1) (mkSt fl fo w aai d tr) =
      EcRes.ok () (mkSt fl false false none Decode.idle (tr ++ wrdiTr)) := by
  cases w <;>
    simp [spi_write_disable, spi_wait, enter_follow_mode, exit_follow_mode, spi_cmd,
      spiPoll, spi_read, ecCmd, ecRead, ecStep, devCmd, devDat, devRead, devFinish,
      statusByte, tick, bind_apply, pure_apply, land_0_1, land_2_1, land_0_3, land_2_3, land_0_2, land_2_2, mkSt, wrdiTr, spiWaitTr, enterTr,
      spiCmdTr, spiReadTr, exitTr]

theorem eraseBlock_run (f : Nat) (s b : Nat) (fl : List Nat) (fo w : Bool)
    (aai : Option Nat) (d : Decode) (tr : List Ev) :
    eraseBlock (f + 1) s b (mkSt fl fo w aai d tr) =
      EcRes.ok () (mkSt
        (writeBytes fl ((s % 256) * 65536 + (b % 256) * 1024) (List.replicate 1024 255))
        false false aai Decode.idle (tr ++ eraseBlockTr s b)) := by
  cases w <;>
    simp [eraseBlock, spi_write_enable, spi_wait, enter_follow_mode, exit_follow_mode,
      spi_cmd, spi_write, spiPoll, spi_read, ecCmd, ecRead, ecStep, devCmd, devDat,
      devRead, devFinish, statusByte, tick, bind_apply, pure_apply, land_0_1, land_2_1, land_0_3, land_2_3, land_0_2, land_2_2, mkSt, eraseBlockTr,
      wrenTr, spiWaitTr, enterTr, spiCmdTr, spiWriteTr, spiReadTr, exitTr]

theorem writeWord_first_run (f : Nat) (buf : List Nat) (s : Nat) (fl : List Nat)
    (fo w : Bool) (tr : List Ev) :
    writeWord (f + 1) buf s 0 0 (mkSt fl fo w none Decode.idle tr) =
      EcRes.ok () (mkSt
        (writeBytes fl (addr3 (s % 256) ((s >>> 8) % 256) ((s >>> 16) % 256))
          [buf.getD (s * 65536) 255, buf.getD (s * 65536 + 1) 255])
        false w (some (addr3 (s % 256) ((s >>> 8) % 256) ((s >>> 16) % 256) + 2))
        Decode.idle (tr ++ wordTr buf s 0 0)) := by
  cases w <;>
    simp [writeWord, writeBytes, spi_wait, enter_follow_mode, exit_follow_mode,
      spi_cmd, spi_write, spiPoll, spi_read, ecCmd, ecRead, ecStep, devCmd, devDat,
      devRead, devFinish, statusByte, tick, bind_apply, pure_apply, land_0_1, land_2_1, land_0_3, land_2_3, land_0_2, land_2_2, mkSt, wordTr,
      addrTr, spiWaitTr, enterTr, spiCmdTr, spiWriteTr, spiReadTr, exitTr]

theorem writeWord_next_run (f : Nat) (buf : List Nat) (s block word a : Nat)
    (fl : List Nat) (fo w : Bool) (tr : List Ev)
    (hbw : ¬ (block = 0 ∧ word = 0)) :
    writeWord (f + 1) buf s block word (mkSt fl fo w (some a) Decode.idle tr) =
      EcRes.ok () (mkSt
        (writeBytes fl a
          [buf.getD (s * 65536 + block * 1024 + word * 2) 255,
            buf.getD (s * 65536 + block * 1024 + word * 2 + 1) 255])
        false w (some (a + 2)) Decode.idle (tr ++ wordTr buf s block word)) := by
  cases w <;>
    simp [writeWord, writeBytes, hbw, spi_wait, enter_follow_mode, exit_follow_mode,
      spi_cmd, spi_write, spiPoll, spi_read, ecCmd, ecRead, ecStep, devCmd, devDat,
      devRead, devFinish, statusByte, tick, bind_apply, pure_apply, land_0_1, land_2_1, land_0_3, land_2_3, land_0_2, land_2_2, mkSt, wordTr,
      addrTr, spiWaitTr, enterTr, spiCmdTr, spiWriteTr, spiReadTr, exitTr]

theorem writeBytes_append (bs1 : List Nat) :
    ∀ (l bs2 : List Nat) (a : Nat),
      writeBytes (writeBytes l a bs1) (a + bs1.length) bs2 =
        writeBytes l a (bs1 ++ bs2) := by
  induction bs1 with
  | nil => intro l bs2 a; simp [writeBytes]
  | cons b bs1 ih =>
    intro l bs2 a
    show writeBytes (writeBytes (l.set a b) (a + 1) bs1) (a + (bs1.length + 1)) bs2 =
      writeBytes (l.set a b) (a + 1) (bs1 ++ bs2)
    have harith : a + (bs1.length + 1) = (a + 1) + bs1.length := by omega
    rw [harith]
    exact ih (l.set a b) bs2 (a + 1)

theorem writeBytes_length (bs : List Nat) :
    ∀ (l : List Nat) (a : Nat), (writeBytes l a bs).length = l.length := by
  induction bs with
  | nil => intro l a; rfl
  | cons b bs ih =>
    intro l a
    show (writeBytes (l.set a b) (a + 1) bs).length = l.length
    rw [ih (l.set a b) (a + 1), List.length_set]

theorem writeBytes_cons_shift (bs : List Nat) :
    ∀ (l : List Nat) (c a : Nat),
      writeBytes (c :: l) (a + 1) bs = c :: writeBytes l a bs := by
  induction bs with
  | nil => intro l c a; rfl
  | cons b bs ih =>
    intro l c a
    show writeBytes ((c :: l).set (a + 1) b) (a + 1 + 1) bs =
      c :: writeBytes (l.set a b) (a + 1) bs
    have hset : (c :: l).set (a + 1) b = c :: l.set a b := rfl
    rw [hset]
    exact ih (l.set a b) c (a + 1)

/-- Writing a byte list over an array of the same length replaces it. -/
theorem writeBytes_full (l : List Nat) :
    ∀ (bs : List Nat), bs.length = l.length → writeBytes l 0 bs = bs := by
  induction l with
  | nil =>
    intro bs h
    have : bs = [] := List.length_eq_zero.mp (by simpa using h)
    subst this; rfl
  | cons x l ih =>
    intro bs h
    match bs with
    | [] => simp at h
    | b :: bs =>
      show writeBytes ((x :: l).set 0 b) 1 bs = b :: bs
      have hset : (x :: l).set 0 b = b :: l := rfl
      rw [hset]
      have h1 : writeBytes (b :: l) (0 + 1) bs = b :: writeBytes l 0 bs :=
        writeBytes_cons_shift bs l b 0
      have h2 : bs.length = l.length := by simpa using h
      have := ih bs h2
      simpa [this] using h1

theorem rangeGetD_zero (buf : List Nat) (a : Nat) : rangeGetD buf a 0 = [] := rfl

theorem rangeGetD_succ (buf : List Nat) (a n : Nat) :
    rangeGetD buf a (n + 1) = buf.getD a 255 :: rangeGetD buf (a + 1) n := by
  unfold rangeGetD
  rw [List.range_succ_eq_map, List.map_cons, List.map_map]
  have htail : List.map ((fun j => buf.getD (a + j) 255) ∘ Nat.succ) (List.range n) =
      List.map (fun j => buf.getD (a + 1 + j) 255) (List.range n) := by
    apply List.map_congr_left
    intro x _
    simp only [Function.comp]
    congr 1
    omega
  rw [htail]
  simp

theorem rangeGetD_add (buf : List Nat) (m : Nat) :
    ∀ (a n : Nat), rangeGetD buf a (m + n) = rangeGetD buf a m ++ rangeGetD buf (a + m) n := by
  induction m with
  | zero => intro a n; simp [rangeGetD_zero]
  | succ m ih =>
    intro a n
    have h1 : m + 1 + n = (m + n) + 1 := by omega
    rw [h1, rangeGetD_succ, rangeGetD_succ, ih (a + 1) n]
    have h2 : a + 1 + m = a + (m + 1) := by omega
    rw [h2, List.cons_append]

theorem rangeGetD_length (buf : List Nat) (a n : Nat) :
    (rangeGetD buf a n).length = n := by
  simp [rangeGetD]

/-- Reading an array's own length from offset 0 returns the array. -/
theorem rangeGetD_self (l : List Nat) : rangeGetD l 0 l.length = l := by
  apply List.ext_getElem
  · simp [rangeGetD]
  · intro i h1 h2
    rw [rangeGetD_length] at h1
    unfold rangeGetD
    simp only [List.getElem_map, List.getElem_range]
    rw [Nat.zero_add]
    exact List.getD_eq_getElem l 255 h2

/-- Reading `n ≥ |buf|` bytes from offset 0 returns `buf` padded with 0xFF. -/
theorem rangeGetD_pad (buf : List Nat) (n : Nat) (h : buf.length ≤ n) :
    rangeGetD buf 0 n = buf ++ List.replicate (n - buf.length) 255 := by
  apply List.ext_getElem
  · simp [rangeGetD_length]
    omega
  · intro i h1 h2
    rw [rangeGetD_length] at h1
    unfold rangeGetD
    simp only [List.getElem_map, List.getElem_range, Nat.zero_add]
    by_cases hib : i < buf.length
    · rw [List.getElem_append_left hib, List.getD_eq_getElem buf 255 hib]
    · have hge : buf.length ≤ i := by omega
      rw [List.getElem_append_right hge]
      rw [List.getD_eq_default]
      · simp
      · exact hge

theorem readChunkTr_add (p : Nat) :
    ∀ q, readChunkTr (p + q) = readChunkTr p ++ readChunkTr q := by
  induction p with
  | zero => intro q; simp [readChunkTr]
  | succ p ih =>
    intro q
    have h1 : p + 1 + q = (p + q) + 1 := by omega
    rw [h1]
    show spiReadTr ++ readChunkTr (p + q) = (spiReadTr ++ readChunkTr p) ++ readChunkTr q
    rw [ih q, List.append_assoc]

theorem iterM_zero (body : Nat → EcM Unit) (i : Nat) :
    iterM body i 0 = pure () := rfl

theorem iterM_succ (body : Nat → EcM Unit) (i n : Nat) :
    iterM body i (n + 1) = body i >>= fun _ => iterM body (i + 1) n := rfl

theorem joinIter_zero (g : Nat → List Ev) (i : Nat) : joinIter g i 0 = [] := rfl

theorem joinIter_succ (g : Nat → List Ev) (i n : Nat) :
    joinIter g i (n + 1) = g i ++ joinIter g (i + 1) n := rfl

/-- The 64-block loop of `Flasher::erase` over one region, aggregated: the
blocks `i, …, i+n` of region `s` are blanked in turn, tiling the range
`[s·65536 + i·1024, s·65536 + (i+n+1)·1024)` with 0xFF. -/
theorem eraseBlocks_run (f s : Nat) (hs : s < 256) :
    ∀ (n i : Nat), i + (n + 1) ≤ 64 →
    ∀ (fl : List Nat) (fo w : Bool) (aai : Option Nat) (d : Decode) (tr : List Ev),
      iterM (fun b => eraseBlock (f + 1) s b) i (n + 1) (mkSt fl fo w aai d tr) =
        EcRes.ok () (mkSt
          (writeBytes fl (s * 65536 + i * 1024) (List.replicate (1024 * (n + 1)) 255))
          false false aai Decode.idle
          (tr ++ joinIter (fun b => eraseBlockTr s b) i (n + 1))) := by
  intro n
  induction n with
  | zero =>
    intro i hi fl fo w aai d tr
    have hsmod : s % 256 = s := Nat.mod_eq_of_lt hs
    have himod : i % 256 = i := Nat.mod_eq_of_lt (by omega)
    rw [iterM_succ, bind_apply, eraseBlock_run, joinIter_succ, joinIter_zero]
    simp only [iterM_zero, pure_apply]
    rw [hsmod, himod]
    simp
  | succ n ih =>
    intro i hi fl fo w aai d tr
    have hsmod : s % 256 = s := Nat.mod_eq_of_lt hs
    have himod : i % 256 = i := Nat.mod_eq_of_lt (by omega)
    rw [iterM_succ, bind_apply, eraseBlock_run, joinIter_succ]
    simp only []
    rw [ih (i + 1) (by omega)]
    have hstep : s % 256 * 65536 + i % 256 * 1024 = s * 65536 + i * 1024 := by
      rw [hsmod, himod]
    have haddr : s * 65536 + (i + 1) * 1024 =
        (s * 65536 + i * 1024) + (List.replicate 1024 (255 : Nat)).length := by
      rw [List.length_replicate]
      omega
    rw [hstep, haddr, writeBytes_append, ← List.replicate_add]
    have hcount : 1024 + 1024 * (n + 1) = 1024 * (n + 1 + 1) := by ring
    rw [hcount, List.append_assoc]

/-- The region loop of `Flasher::erase`, aggregated: erasing regions
`i, …, i+n` blanks `[i·65536, (i+n+1)·65536)`. -/
theorem eraseSectors_run (f : Nat) :
    ∀ (n i : Nat), i + (n + 1) ≤ 256 →
    ∀ (fl : List Nat) (fo w : Bool) (aai : Option Nat) (d : Decode) (tr : List Ev),
      iterM (fun sec => iterM (fun b => eraseBlock (f + 1) sec b) 0 64) i (n + 1)
          (mkSt fl fo w aai d tr) =
        EcRes.ok () (mkSt
          (writeBytes fl (i * 65536) (List.replicate (65536 * (n + 1)) 255))
          false false aai Decode.idle
          (tr ++ joinIter (fun sec => joinIter (fun b => eraseBlockTr sec b) 0 64)
            i (n + 1))) := by
  intro n
  induction n with
  | zero =>
    intro i hi fl fo w aai d tr
    have hblocks := eraseBlocks_run f i (by omega) 63 0 (by omega) fl fo w aai d tr
    norm_num at hblocks
    rw [iterM_succ, bind_apply, hblocks]
    simp only [iterM_zero, pure_apply]
    conv_rhs => rw [joinIter_succ, joinIter_zero]
    rw [List.append_nil]
  | succ n ih =>
    intro i hi fl fo w aai d tr
    have hblocks := eraseBlocks_run f i (by omega) 63 0 (by omega) fl fo w aai d tr
    norm_num at hblocks
    rw [iterM_succ, bind_apply, hblocks]
    simp only []
    rw [ih (i + 1) (by omega)]
    have haddr : (i + 1) * 65536 =
        i * 65536 + (List.replicate 65536 (255 : Nat)).length := by
      rw [List.length_replicate]
      omega
    rw [haddr, writeBytes_append, ← List.replicate_add]
    have hcount : 65536 + 65536 * (n + 1) = 65536 * (n + 1 + 1) := by ring
    rw [hcount]
    conv_rhs => rw [joinIter_succ]
    simp only [List.append_assoc]

theorem readChunk_zero : readChunk 0 = pure [] := rfl

theorem readChunk_succ (n : Nat) :
    readChunk (n + 1) =
      spi_read >>= fun v => readChunk n >>= fun rest => pure (v :: rest) := rfl

theorem readBlocks_zero : readBlocks 0 = pure [] := rfl

theorem readBlocks_succ (n : Nat) :
    readBlocks (n + 1) =
      readChunk 1024 >>= fun blk => readBlocks n >>= fun rest => pure (blk ++ rest) := rfl

theorem readChunkTr_succ (n : Nat) :
    readChunkTr (n + 1) = spiReadTr ++ readChunkTr n := rfl

theorem spi_read_run (fl : List Nat) (fo w : Bool) (aai : Option Nat) (a : Nat)
    (tr : List Ev) :
    spi_read (mkSt fl fo w aai (Decode.reading a) tr) =
      EcRes.ok (fl.getD a 255)
        (mkSt fl fo w aai (Decode.reading (a + 1)) (tr ++ spiReadTr)) := by
  simp [spi_read, ecCmd, ecRead, ecStep, devRead, tick, bind_apply, mkSt, spiReadTr]

/-- The byte-read loop streams `n` consecutive flash bytes. -/
theorem readChunk_run (fl : List Nat) (fo w : Bool) (aai : Option Nat) :
    ∀ (n a : Nat) (tr : List Ev),
      readChunk n (mkSt fl fo w aai (Decode.reading a) tr) =
        EcRes.ok (rangeGetD fl a n)
          (mkSt fl fo w aai (Decode.reading (a + n)) (tr ++ readChunkTr n)) := by
  intro n
  induction n with
  | zero =>
    intro a tr
    rw [readChunk_zero, pure_apply]
    simp [rangeGetD_zero, readChunkTr]
  | succ n ih =>
    intro a tr
    rw [readChunk_succ, bind_apply, spi_read_run]
    simp only []
    rw [bind_apply, ih (a + 1) (tr ++ spiReadTr)]
    simp only [pure_apply]
    rw [rangeGetD_succ]
    have h1 : a + 1 + n = a + (n + 1) := by omega
    rw [h1, readChunkTr_succ, List.append_assoc]

/-- The 64-block loop streams `1024·m` consecutive flash bytes. -/
theorem readBlocks_run (fl : List Nat) (fo w : Bool) (aai : Option Nat) :
    ∀ (m a : Nat) (tr : List Ev),
      readBlocks m (mkSt fl fo w aai (Decode.reading a) tr) =
        EcRes.ok (rangeGetD fl a (1024 * m))
          (mkSt fl fo w aai (Decode.reading (a + 1024 * m))
            (tr ++ readChunkTr (1024 * m))) := by
  intro m
  induction m with
  | zero =>
    intro a tr
    rw [readBlocks_zero, pure_apply]
    simp [rangeGetD_zero, readChunkTr]
  | succ m ih =>
    intro a tr
    rw [readBlocks_succ, bind_apply, readChunk_run]
    simp only []
    rw [bind_apply, ih (a + 1024) (tr ++ readChunkTr 1024)]
    simp only [pure_apply]
    have h1 : 1024 * (m + 1) = 1024 + 1024 * m := by ring
    rw [h1, rangeGetD_add, readChunkTr_add]
    have h2 : a + 1024 + 1024 * m = a + (1024 + 1024 * m) := by omega
    rw [h2, List.append_assoc]

theorem enter_run (fl : List Nat) (fo w : Bool) (aai : Option Nat) (d : Decode)
    (tr : List Ev) :
    enter_follow_mode (mkSt fl fo w aai d tr) =
      EcRes.ok () (mkSt fl true w aai Decode.idle (tr ++ enterTr)) := by
  simp [enter_follow_mode, ecCmd, ecStep, devFinish, tick, mkSt, enterTr]

theorem exit_run (fl : List Nat) (fo w : Bool) (aai : Option Nat) (d : Decode)
    (tr : List Ev) :
    exit_follow_mode (mkSt fl fo w aai d tr) =
      EcRes.ok () (mkSt fl false w aai Decode.idle (tr ++ exitTr)) := by
  simp [exit_follow_mode, ecCmd, ecStep, devFinish, tick, mkSt, exitTr]

theorem spi_cmd11_run (fl : List Nat) (fo w : Bool) (aai : Option Nat)
    (d : Decode) (tr : List Ev) :
    spi_cmd 11 (mkSt fl fo w aai d tr) =
      EcRes.ok () (mkSt fl fo w aai (Decode.readAddr []) (tr ++ spiCmdTr 11)) := by
  simp [spi_cmd, ecCmd, ecStep, devCmd, tick, bind_apply, mkSt, spiCmdTr]

theorem spi_write_ra0_run (v : Nat) (fl : List Nat) (fo w : Bool)
    (aai : Option Nat) (tr : List Ev) :
    spi_write v (mkSt fl fo w aai (Decode.readAddr []) tr) =
      EcRes.ok () (mkSt fl fo w aai (Decode.readAddr [v]) (tr ++ spiWriteTr v)) := by
  simp [spi_write, ecCmd, ecStep, devDat, tick, bind_apply, mkSt, spiWriteTr]

theorem spi_write_ra1_run (v x : Nat) (fl : List Nat) (fo w : Bool)
    (aai : Option Nat) (tr : List Ev) :
    spi_write v (mkSt fl fo w aai (Decode.readAddr [x]) tr) =
      EcRes.ok () (mkSt fl fo w aai (Decode.readAddr [x, v]) (tr ++ spiWriteTr v)) := by
  simp [spi_write, ecCmd, ecStep, devDat, tick, bind_apply, mkSt, spiWriteTr]

theorem spi_write_ra2_run (v x y : Nat) (fl : List Nat) (fo w : Bool)
    (aai : Option Nat) (tr : List Ev) :
    spi_write v (mkSt fl fo w aai (Decode.readAddr [x, y]) tr) =
      EcRes.ok () (mkSt fl fo w aai (Decode.readAddr [x, y, v]) (tr ++ spiWriteTr v)) := by
  simp [spi_write, ecCmd, ecStep, devDat, tick, bind_apply, mkSt, spiWriteTr]

theorem spi_write_ra3_run (v x y z : Nat) (fl : List Nat) (fo w : Bool)
    (aai : Option Nat) (tr : List Ev) :
    spi_write v (mkSt fl fo w aai (Decode.readAddr [x, y, z]) tr) =
      EcRes.ok () (mkSt fl fo w aai (Decode.reading (addr3 x y z)) (tr ++ spiWriteTr v)) := by
  simp [spi_write, ecCmd, ecStep, devDat, tick, bind_apply, mkSt, spiWriteTr, addr3]

/-- One region of `Flasher::read`: the 64 KiB starting at
`(sector % 256) · 65536` are streamed out; the EC ends write-disabled, out
of follow mode and out of AAI mode. -/
theorem readSector_run (f s : Nat) (fl : List Nat) (fo w : Bool)
    (aai : Option Nat) (d : Decode) (tr : List Ev) :
    readSector (f + 1) s (mkSt fl fo w aai d tr) =
      EcRes.ok (rangeGetD fl ((s % 256) * 65536) 65536)
        (mkSt fl false false none Decode.idle (tr ++ readSectorTr s)) := by
  have h64 : 1024 * 64 = 65536 := by norm_num
  have haddr : addr3 (s % 256) 0 0 = (s % 256) * 65536 := by simp [addr3]
  unfold readSector
  rw [bind_ok (spi_write_disable_run f fl fo w aai d tr)]
  rw [bind_ok (spi_wait_run f fl false false none Decode.idle _)]
  rw [bind_ok (enter_run fl false false none Decode.idle _)]
  rw [bind_ok (spi_cmd11_run fl true false none Decode.idle _)]
  rw [bind_ok (spi_write_ra0_run (s % 256) fl true false none _)]
  rw [bind_ok (spi_write_ra1_run 0 (s % 256) fl true false none _)]
  rw [bind_ok (spi_write_ra2_run 0 (s % 256) 0 fl true false none _)]
  rw [bind_ok (spi_write_ra3_run 0 (s % 256) 0 0 fl true false none _)]
  rw [bind_ok (readBlocks_run fl true false none 64 (addr3 (s % 256) 0 0) _)]
  rw [bind_ok (spi_wait_run f fl true false none
    (Decode.reading (addr3 (s % 256) 0 0 + 1024 * 64)) _)]
  rw [pure_apply, haddr, h64]
  simp only [readSectorTr, List.append_assoc]

theorem readSectors_zero (f i : Nat) : readSectors f i 0 = pure [] := rfl

theorem readSectors_succ (f i n : Nat) :
    readSectors f i (n + 1) =
      readSector f i >>= fun chunk =>
        readSectors f (i + 1) n >>= fun rest => pure (chunk ++ rest) := rfl

/-- The region loop of `Flasher::read`, aggregated: regions `i, …, i+n` are
streamed out in order, giving the `65536·(n+1)` flash bytes from `i·65536`. -/
theorem readSectors_run (f : Nat) :
    ∀ (n i : Nat), i + (n + 1) ≤ 256 →
    ∀ (fl : List Nat) (fo w : Bool) (aai : Option Nat) (d : Decode) (tr : List Ev),
      readSectors (f + 1) i (n + 1) (mkSt fl fo w aai d tr) =
        EcRes.ok (rangeGetD fl (i * 65536) (65536 * (n + 1)))
          (mkSt fl false false none Decode.idle
            (tr ++ joinIter (fun sec => readSectorTr sec) i (n + 1))) := by
  intro n
  induction n with
  | zero =>
    intro i hi fl fo w aai d tr
    rw [readSectors_succ, bind_ok (readSector_run f i fl fo w aai d tr)]
    rw [readSectors_zero, bind_ok (pure_apply [] _), pure_apply]
    have hmod : i % 256 = i := Nat.mod_eq_of_lt (by omega)
    rw [hmod, List.append_nil]
    conv_rhs => rw [joinIter_succ, joinIter_zero, List.append_nil]
  | succ n ih =>
    intro i hi fl fo w aai d tr
    rw [readSectors_succ, bind_ok (readSector_run f i fl fo w aai d tr)]
    rw [bind_ok (ih (i + 1) (by omega) fl false false none Decode.idle _), pure_apply]
    have hmod : i % 256 = i := Nat.mod_eq_of_lt (by omega)
    rw [hmod]
    have hsplit : 65536 * (n + 1 + 1) = 65536 + 65536 * (n + 1) := by ring
    rw [hsplit, rangeGetD_add]
    have haddr : i * 65536 + 65536 = (i + 1) * 65536 := by ring
    rw [haddr]
    conv_rhs => rw [joinIter_succ]
    simp only [List.append_assoc]

theorem writeBytes_nil (l : List Nat) (a : Nat) : writeBytes l a [] = l := rfl

theorem rangeGetD_two (buf : List Nat) (p : Nat) :
    rangeGetD buf p 2 = [buf.getD p 255, buf.getD (p + 1) 255] := by
  show rangeGetD buf p (0 + 1 + 1) = _
  rw [rangeGetD_succ, rangeGetD_succ, rangeGetD_zero]

theorem initEc_eq (fl : List Nat) :
    initEc fl = mkSt fl false false none Decode.idle [] := rfl

theorem trace_mkSt (fl : List Nat) (fo w : Bool) (aai : Option Nat) (d : Decode)
    (tr : List Ev) : (mkSt fl fo w aai d tr).trace = tr := rfl

/-- A streak of AAI words past the first word of a region: words
`wstart, …, wstart+n-1` of block `block` stream `2·n` consecutive buffer
bytes into the flash at the open AAI address. -/
theorem writeWords_run (f : Nat) (buf : List Nat) (s block : Nat) :
    ∀ (n wstart : Nat), block ≠ 0 ∨ 1 ≤ wstart →
    ∀ (a : Nat) (fl : List Nat) (w : Bool) (tr : List Ev),
      iterM (fun word => writeWord (f + 1) buf s block word) wstart n
          (mkSt fl false w (some a) Decode.idle tr) =
        EcRes.ok () (mkSt
          (writeBytes fl a
            (rangeGetD buf (s * 65536 + block * 1024 + wstart * 2) (2 * n)))
          false w (some (a + 2 * n)) Decode.idle
          (tr ++ joinIter (fun word => wordTr buf s block word) wstart n)) := by
  intro n
  induction n with
  | zero =>
    intro wstart hbw a fl w tr
    rw [iterM_zero, pure_apply]
    conv_rhs => rw [Nat.mul_zero, rangeGetD_zero, writeBytes_nil, joinIter_zero,
      List.append_nil, Nat.add_zero]
  | succ n ih =>
    intro wstart hbw a fl w tr
    have hbw2 : ¬ (block = 0 ∧ wstart = 0) := by omega
    rw [iterM_succ, bind_ok (writeWord_next_run f buf s block wstart a fl false w tr hbw2)]
    rw [ih (wstart + 1) (by omega)]
    have hc := writeBytes_append
      [buf.getD (s * 65536 + block * 1024 + wstart * 2) 255,
        buf.getD (s * 65536 + block * 1024 + wstart * 2 + 1) 255]
      fl (rangeGetD buf (s * 65536 + block * 1024 + (wstart + 1) * 2) (2 * n)) a
    have hl : ([buf.getD (s * 65536 + block * 1024 + wstart * 2) 255,
        buf.getD (s * 65536 + block * 1024 + wstart * 2 + 1) 255] : List Nat).length = 2 := rfl
    rw [hl] at hc
    rw [hc]
    have hsplit : 2 * (n + 1) = 2 + 2 * n := by ring
    rw [hsplit, rangeGetD_add, rangeGetD_two]
    have haddr2 : s * 65536 + block * 1024 + (wstart + 1) * 2 =
        s * 65536 + block * 1024 + wstart * 2 + 2 := by ring
    rw [haddr2, Nat.add_assoc a 2 (2 * n)]
    conv_rhs => rw [joinIter_succ]
    simp only [List.append_assoc]

/-- Block 0 of a region of `Flasher::write`: the first word opens the AAI
sequence at the region's base address; the remaining 511 words stream the
rest of the first KiB. -/
theorem writeBlock0_run (f : Nat) (buf : List Nat) (s : Nat) (fl : List Nat)
    (w : Bool) (tr : List Ev) :
    iterM (fun word => writeWord (f + 1) buf s 0 word) 0 512
        (mkSt fl false w none Decode.idle tr) =
      EcRes.ok () (mkSt
        (writeBytes fl (addr3 (s % 256) ((s >>> 8) % 256) ((s >>> 16) % 256))
          (rangeGetD buf (s * 65536) 1024))
        false w
        (some (addr3 (s % 256) ((s >>> 8) % 256) ((s >>> 16) % 256) + (2 + 2 * 511)))
        Decode.idle
        (tr ++ joinIter (fun word => wordTr buf s 0 word) 0 512)) := by
  conv_lhs => rw [show (512 : Nat) = 511 + 1 from rfl]
  rw [iterM_succ, bind_ok (writeWord_first_run f buf s fl false w tr)]
  rw [writeWords_run f buf s 0 511 (0 + 1) (Or.inr (by omega))]
  have hb0 : s * 65536 + 0 * 1024 + (0 + 1) * 2 = s * 65536 + 2 := by ring
  rw [hb0]
  have hc := writeBytes_append
    [buf.getD (s * 65536) 255, buf.getD (s * 65536 + 1) 255]
    fl (rangeGetD buf (s * 65536 + 2) (2 * 511))
    (addr3 (s % 256) ((s >>> 8) % 256) ((s >>> 16) % 256))
  have hl : ([buf.getD (s * 65536) 255, buf.getD (s * 65536 + 1) 255] :
      List Nat).length = 2 := rfl
  rw [hl] at hc
  rw [hc]
  rw [show (1024 : Nat) = 2 + 2 * 511 from by norm_num]
  rw [rangeGetD_add, rangeGetD_two]
  rw [Nat.add_assoc (addr3 (s % 256) ((s >>> 8) % 256) ((s >>> 16) % 256)) 2 (2 * 511)]
  conv_rhs => rw [show (512 : Nat) = 511 + 1 from rfl, joinIter_succ]
  simp only [List.append_assoc]

/-- Full blocks `i, …, i+n-1` (with `1 ≤ i`) of a region of
`Flasher::write`: each streams its KiB at the open AAI address. -/
theorem writeBlocks_run (f : Nat) (buf : List Nat) (s : Nat) :
    ∀ (n i : Nat), 1 ≤ i →
    ∀ (a : Nat) (fl : List Nat) (w : Bool) (tr : List Ev),
      iterM (fun block => iterM (fun word => writeWord (f + 1) buf s block word) 0 512) i n
          (mkSt fl false w (some a) Decode.idle tr) =
        EcRes.ok () (mkSt
          (writeBytes fl a (rangeGetD buf (s * 65536 + i * 1024) (1024 * n)))
          false w (some (a + 1024 * n)) Decode.idle
          (tr ++ joinIter
            (fun block => joinIter (fun word => wordTr buf s block word) 0 512) i n)) := by
  intro n
  induction n with
  | zero =>
    intro i hi a fl w tr
    rw [iterM_zero, pure_apply]
    conv_rhs => rw [Nat.mul_zero, rangeGetD_zero, writeBytes_nil, joinIter_zero,
      List.append_nil, Nat.add_zero]
  | succ n ih =>
    intro i hi a fl w tr
    rw [iterM_succ]
    have hwords := writeWords_run f buf s i 512 0 (Or.inl (by omega)) a fl w tr
    have hb : s * 65536 + i * 1024 + 0 * 2 = s * 65536 + i * 1024 := by ring
    rw [hb] at hwords
    have h2 : (2 * 512 : Nat) = 1024 := by norm_num
    rw [h2] at hwords
    rw [bind_ok hwords]
    rw [ih (i + 1) (by omega)]
    have hc := writeBytes_append (rangeGetD buf (s * 65536 + i * 1024) 1024)
      fl (rangeGetD buf (s * 65536 + (i + 1) * 1024) (1024 * n)) a
    rw [rangeGetD_length] at hc
    rw [hc]
    have hs1 : 1024 * (n + 1) = 1024 + 1024 * n := by ring
    rw [hs1, rangeGetD_add]
    have hadr : s * 65536 + i * 1024 + 1024 = s * 65536 + (i + 1) * 1024 := by ring
    rw [hadr, Nat.add_assoc a 1024 (1024 * n)]
    conv_rhs => rw [joinIter_succ]
    simp only [List.append_assoc]

/-- With the region index below 256, the three AAI address bytes decode back
to the region's base address. -/
theorem addr3_region (s : Nat) (hs : s < 256) :
    addr3 (s % 256) ((s >>> 8) % 256) ((s >>> 16) % 256) = s * 65536 := by
  have h8 : s >>> 8 = 0 := by
    rw [Nat.shiftRight_eq_div_pow]
    apply Nat.div_eq_of_lt
    norm_num
    omega
  have h16 : s >>> 16 = 0 := by
    rw [Nat.shiftRight_eq_div_pow]
    apply Nat.div_eq_of_lt
    norm_num
    omega
  simp [addr3, h8, h16, Nat.mod_eq_of_lt hs]

attribute [irreducible] rangeGetD writeBytes joinIter

/-- All 64 blocks of one region of `Flasher::write`, in raw form: block 0
then blocks 1–63, states composed but not yet recombined. -/
theorem writeAllBlocks_raw (f : Nat) (buf : List Nat) (s : Nat) (hs : s < 256)
    (fl : List Nat) (w : Bool) (tr : List Ev) :
    iterM (fun block => iterM (fun word => writeWord (f + 1) buf s block word) 0 512) 0 64
        (mkSt fl false w none Decode.idle tr) =
      EcRes.ok () (mkSt
        (writeBytes (writeBytes fl (s * 65536) (rangeGetD buf (s * 65536) 1024))
          (s * 65536 + 1024) (rangeGetD buf (s * 65536 + 1024) (1024 * 63)))
        false w (some (s * 65536 + 1024 + 1024 * 63)) Decode.idle
        ((tr ++ joinIter (fun word => wordTr buf s 0 word) 0 512) ++
          joinIter (fun block => joinIter (fun word => wordTr buf s block word) 0 512)
            (0 + 1) 63)) := by
  have hsplit : iterM
      (fun block => iterM (fun word => writeWord (f + 1) buf s block word) 0 512) 0 64 =
      iterM (fun word => writeWord (f + 1) buf s 0 word) 0 512 >>= fun _ =>
        iterM (fun block => iterM (fun word => writeWord (f + 1) buf s block word) 0 512)
          (0 + 1) 63 := rfl
  rw [hsplit, bind_ok (writeBlock0_run f buf s fl w tr)]
  rw [addr3_region s hs]
  rw [writeBlocks_run f buf s 63 (0 + 1) (by omega)]

/-- All 64 blocks of one region of `Flasher::write`: the region's 64 KiB of
buffer bytes are streamed into the flash starting at the region base. -/
theorem writeAllBlocks_run (f : Nat) (buf : List Nat) (s : Nat) (hs : s < 256)
    (fl : List Nat) (w : Bool) (tr : List Ev) :
    iterM (fun block => iterM (fun word => writeWord (f + 1) buf s block word) 0 512) 0 64
        (mkSt fl false w none Decode.idle tr) =
      EcRes.ok () (mkSt (writeBytes fl (s * 65536) (rangeGetD buf (s * 65536) 65536))
        false w (some (s * 65536 + 65536)) Decode.idle
        (tr ++ joinIter
          (fun block => joinIter (fun word => wordTr buf s block word) 0 512) 0 64)) := by
  have hfl : writeBytes (writeBytes fl (s * 65536) (rangeGetD buf (s * 65536) 1024))
      (s * 65536 + 1024) (rangeGetD buf (s * 65536 + 1024) (1024 * 63)) =
      writeBytes fl (s * 65536) (rangeGetD buf (s * 65536) 65536) := by
    have hc := writeBytes_append (rangeGetD buf (s * 65536) 1024) fl
      (rangeGetD buf (s * 65536 + 1024) (1024 * 63)) (s * 65536)
    rw [rangeGetD_length] at hc
    refine hc.trans ?_
    refine congrArg (writeBytes fl (s * 65536)) ?_
    rw [← rangeGetD_add]
  have haai : s * 65536 + 1024 + 1024 * 63 = s * 65536 + 65536 := by omega
  have htr : tr ++ joinIter
      (fun block => joinIter (fun word => wordTr buf s block word) 0 512) 0 64 =
      (tr ++ joinIter (fun word => wordTr buf s 0 word) 0 512) ++
        joinIter (fun block => joinIter (fun word => wordTr buf s block word) 0 512)
          (0 + 1) 63 := by
    conv_lhs => rw [show (64 : Nat) = 63 + 1 from rfl, joinIter_succ]
    simp only [List.append_assoc]
  rw [writeAllBlocks_raw f buf s hs fl w tr]
  simp only [hfl, haai, htr]

/-- One region of `Flasher::write`: write-enable, stream the region's 64 KiB,
write-disable, wait.  The EC ends write-disabled, out of follow mode and out
of AAI mode. -/
theorem writeSectorBody_run (f : Nat) (buf : List Nat) (s : Nat) (hs : s < 256)
    (fl : List Nat) (fo w : Bool) (d : Decode) (tr : List Ev) :
    writeSectorBody (f + 1) buf s (mkSt fl fo w none d tr) =
      EcRes.ok () (mkSt (writeBytes fl (s * 65536) (rangeGetD buf (s * 65536) 65536))
        false false none Decode.idle (tr ++ sectorWriteTr buf s)) := by
  unfold writeSectorBody
  rw [bind_ok (spi_write_enable_run f fl fo w none d tr)]
  rw [bind_ok (writeAllBlocks_run f buf s hs fl true (tr ++ wrenTr))]
  rw [bind_ok (spi_write_disable_run f _ false true (some (s * 65536 + 65536))
    Decode.idle _)]
  rw [spi_wait_run]
  simp only [sectorWriteTr, List.append_assoc]

/-- The region loop of `Flasher::write`, aggregated: regions `i, …, i+n` are
programmed in order, writing `65536·(n+1)` buffer bytes from offset
`i·65536`. -/
theorem writeSectors_run (f : Nat) (buf : List Nat) :
    ∀ (n i : Nat), i + (n + 1) ≤ 256 →
    ∀ (fl : List Nat) (fo w : Bool) (d : Decode) (tr : List Ev),
      iterM (fun sector => writeSectorBody (f + 1) buf sector) i (n + 1)
          (mkSt fl fo w none d tr) =
        EcRes.ok () (mkSt
          (writeBytes fl (i * 65536) (rangeGetD buf (i * 65536) (65536 * (n + 1))))
          false false none Decode.idle
          (tr ++ joinIter (fun sector => sectorWriteTr buf sector) i (n + 1))) := by
  intro n
  induction n with
  | zero =>
    intro i hi fl fo w d tr
    rw [iterM_succ, bind_ok (writeSectorBody_run f buf i (by omega) fl fo w d tr)]
    rw [iterM_zero, pure_apply]
    conv_rhs => rw [show (65536 * (0 + 1) : Nat) = 65536 from by norm_num]
    conv_rhs => rw [joinIter_succ, joinIter_zero, List.append_nil]
  | succ n ih =>
    intro i hi fl fo w d tr
    rw [iterM_succ, bind_ok (writeSectorBody_run f buf i (by omega) fl fo w d tr)]
    rw [ih (i + 1) (by omega)]
    have hadr : (i + 1) * 65536 = i * 65536 + 65536 := by ring
    rw [hadr]
    have hc := writeBytes_append (rangeGetD buf (i * 65536) 65536) fl
      (rangeGetD buf (i * 65536 + 65536) (65536 * (n + 1))) (i * 65536)
    rw [rangeGetD_length] at hc
    rw [hc, ← rangeGetD_add]
    rw [show (65536 + 65536 * (n + 1) : Nat) = 65536 * (n + 1 + 1) from by ring]
    conv_rhs => rw [joinIter_succ]
    simp only [List.append_assoc]

/-- C1: round-trip over the simulated EC, for any flasher size `65536·k`
(`k ≤ 256` regions) and flash array of that length: a successful
`Flasher::erase` followed by a successful `Flasher::read` returns a buffer
that is all 0xFF, and for any source buffer of at most the flasher size, a
successful `Flasher::write` followed by a successful `Flasher::read` returns
the source buffer padded with 0xFF to the flasher size. -/
theorem claim_C1 (k f : Nat) (hk : k ≤ 256) (fr : Flasher)
    (hsize : fr.size = 65536 * k) (fl buf : List Nat)
    (hfl : fl.length = 65536 * k) (hbuf : buf.length ≤ 65536 * k) :
    (∃ s1 s2, Flasher.erase fr (f + 1) (initEc fl) = EcRes.ok () s1 ∧
       Flasher.read fr (f + 1) s1 =
         EcRes.ok (List.replicate (65536 * k) 255) s2) ∧
    (∃ s3 s4, Flasher.write fr (f + 1) buf (initEc fl) = EcRes.ok () s3 ∧
       Flasher.read fr (f + 1) s3 =
         EcRes.ok (buf ++ List.replicate (65536 * k - buf.length) 255) s4) := by
  cases k with
  | zero =>
    have hfl0 : fl = [] := by
      apply List.eq_nil_of_length_eq_zero
      omega
    have hbuf0 : buf = [] := by
      apply List.eq_nil_of_length_eq_zero
      omega
    subst hfl0
    subst hbuf0
    refine ⟨⟨initEc [], initEc [], ?_, ?_⟩, ⟨initEc [], initEc [], ?_, ?_⟩⟩
    · unfold Flasher.erase
      rw [hsize]
      norm_num [iterM_zero, pure_apply]
    · unfold Flasher.read
      rw [hsize]
      norm_num [readSectors_zero, pure_apply]
    · unfold Flasher.write
      rw [hsize]
      norm_num [iterM_zero, pure_apply]
    · unfold Flasher.read
      rw [hsize]
      norm_num [readSectors_zero, pure_apply]
  | succ n =>
    have hdiv : 65536 * (n + 1) / 65536 = n + 1 :=
      Nat.mul_div_cancel_left _ (by norm_num)
    constructor
    · have h1 := eraseSectors_run f n 0 (by omega) fl false false none Decode.idle []
      have he : Flasher.erase fr (f + 1) (initEc fl) =
          iterM (fun sec => iterM (fun b => eraseBlock (f + 1) sec b) 0 64) 0 (n + 1)
            (mkSt fl false false none Decode.idle []) := by
        unfold Flasher.erase
        rw [hsize, hdiv, initEc_eq]
      have hval : rangeGetD
          (writeBytes fl (0 * 65536) (List.replicate (65536 * (n + 1)) 255))
          (0 * 65536) (65536 * (n + 1)) = List.replicate (65536 * (n + 1)) 255 := by
        rw [show (0 * 65536 : Nat) = 0 from by norm_num]
        have hfull : writeBytes fl 0 (List.replicate (65536 * (n + 1)) 255) =
            List.replicate (65536 * (n + 1)) 255 :=
          writeBytes_full fl _ (by rw [List.length_replicate, hfl])
        rw [hfull]
        have hself := rangeGetD_self (List.replicate (65536 * (n + 1)) 255)
        rw [List.length_replicate] at hself
        exact hself
      have hr : Flasher.read fr (f + 1)
          (mkSt (writeBytes fl (0 * 65536) (List.replicate (65536 * (n + 1)) 255))
            false false none Decode.idle
            ([] ++ joinIter (fun sec => joinIter (fun b => eraseBlockTr sec b) 0 64)
              0 (n + 1))) =
          EcRes.ok (List.replicate (65536 * (n + 1)) 255)
            (mkSt (writeBytes fl (0 * 65536) (List.replicate (65536 * (n + 1)) 255))
              false false none Decode.idle
              (([] ++ joinIter (fun sec => joinIter (fun b => eraseBlockTr sec b) 0 64)
                  0 (n + 1)) ++
                joinIter (fun sec => readSectorTr sec) 0 (n + 1))) := by
        unfold Flasher.read
        rw [hsize, hdiv]
        rw [readSectors_run f n 0 (by omega)
          (writeBytes fl (0 * 65536) (List.replicate (65536 * (n + 1)) 255))
          false false none Decode.idle
          ([] ++ joinIter (fun sec => joinIter (fun b => eraseBlockTr sec b) 0 64)
            0 (n + 1))]
        rw [hval]
      exact ⟨_, _, he.trans h1, hr⟩
    · have h2 := writeSectors_run f buf n 0 (by omega) fl false false Decode.idle []
      have hw : Flasher.write fr (f + 1) buf (initEc fl) =
          iterM (fun sector => writeSectorBody (f + 1) buf sector) 0 (n + 1)
            (mkSt fl false false none Decode.idle []) := by
        unfold Flasher.write
        rw [hsize, hdiv, initEc_eq]
      have hval2 : rangeGetD
          (writeBytes fl (0 * 65536) (rangeGetD buf (0 * 65536) (65536 * (n + 1))))
          (0 * 65536) (65536 * (n + 1)) =
          buf ++ List.replicate (65536 * (n + 1) - buf.length) 255 := by
        rw [show (0 * 65536 : Nat) = 0 from by norm_num]
        have hpad : rangeGetD buf 0 (65536 * (n + 1)) =
            buf ++ List.replicate (65536 * (n + 1) - buf.length) 255 :=
          rangeGetD_pad buf _ hbuf
        have hlen : (buf ++ List.replicate (65536 * (n + 1) - buf.length) 255).length =
            65536 * (n + 1) := by
          rw [List.length_append, List.length_replicate]
          omega
        rw [hpad]
        have hfull : writeBytes fl 0
            (buf ++ List.replicate (65536 * (n + 1) - buf.length) 255) =
            buf ++ List.replicate (65536 * (n + 1) - buf.length) 255 :=
          writeBytes_full fl _ (by rw [hlen, hfl])
        rw [hfull]
        have hself := rangeGetD_self
          (buf ++ List.replicate (65536 * (n + 1) - buf.length) 255)
        rw [hlen] at hself
        exact hself
      have hr2 : Flasher.read fr (f + 1)
          (mkSt (writeBytes fl (0 * 65536) (rangeGetD buf (0 * 65536) (65536 * (n + 1))))
            false false none Decode.idle
            ([] ++ joinIter (fun sector => sectorWriteTr buf sector) 0 (n + 1))) =
          EcRes.ok (buf ++ List.replicate (65536 * (n + 1) - buf.length) 255)
            (mkSt (writeBytes fl (0 * 65536) (rangeGetD buf (0 * 65536) (65536 * (n + 1))))
              false false none Decode.idle
              (([] ++ joinIter (fun sector => sectorWriteTr buf sector) 0 (n + 1)) ++
                joinIter (fun sec => readSectorTr sec) 0 (n + 1))) := by
        unfold Flasher.read
        rw [hsize, hdiv]
        rw [readSectors_run f n 0 (by omega)
          (writeBytes fl (0 * 65536) (rangeGetD buf (0 * 65536) (65536 * (n + 1))))
          false false none Decode.idle
          ([] ++ joinIter (fun sector => sectorWriteTr buf sector) 0 (n + 1))]
        rw [hval2]
      exact ⟨_, _, hw.trans h2, hr2⟩

theorem claim_C1_witness :
    (∃ s1 s2, Flasher.erase ⟨65536 * 0⟩ (0 + 1) (initEc []) = EcRes.ok () s1 ∧
       Flasher.read ⟨65536 * 0⟩ (0 + 1) s1 =
         EcRes.ok (List.replicate (65536 * 0) 255) s2) ∧
    (∃ s3 s4, Flasher.write ⟨65536 * 0⟩ (0 + 1) [] (initEc []) = EcRes.ok () s3 ∧
       Flasher.read ⟨65536 * 0⟩ (0 + 1) s3 =
         EcRes.ok ([] ++ List.replicate (65536 * 0 - List.length ([] : List Nat)) 255) s4) :=
  claim_C1 0 0 (by norm_num) ⟨65536 * 0⟩ rfl [] [] rfl (by norm_num)

/-- C5: the complete emission sequence of `Flasher::write` over `k ≤ 256`
regions is, per region in order: one `spi_write_enable`, then for each of the
64 blocks and 512 words per block one word emission — enter follow mode, SPI
command 0xAD, the three address bytes `[sector, sector >> 8, sector >> 16]`
exactly when `block = 0 ∧ word = 0`, the two data bytes
`buf[sector·65536 + block·1024 + word·2]` and the byte after it (0xFF past
the end of `buf`), then `spi_wait` — then `spi_write_disable` and a final
`spi_wait`. -/
theorem claim_C5 (k f : Nat) (hk : k ≤ 256) (fr : Flasher)
    (hsize : fr.size = 65536 * k) (buf fl : List Nat) :
    ∃ s1, Flasher.write fr (f + 1) buf (initEc fl) = EcRes.ok () s1 ∧
      s1.trace = writeTr buf k := by
  cases k with
  | zero =>
    refine ⟨initEc fl, ?_, ?_⟩
    · unfold Flasher.write
      rw [hsize]
      norm_num [iterM_zero, pure_apply]
    · rw [show writeTr buf 0 = joinIter (fun sector => sectorWriteTr buf sector) 0 0
        from rfl, joinIter_zero]
      rfl
  | succ n =>
    have hdiv : 65536 * (n + 1) / 65536 = n + 1 :=
      Nat.mul_div_cancel_left _ (by norm_num)
    have h2 := writeSectors_run f buf n 0 (by omega) fl false false Decode.idle []
    have hw : Flasher.write fr (f + 1) buf (initEc fl) =
        iterM (fun sector => writeSectorBody (f + 1) buf sector) 0 (n + 1)
          (mkSt fl false false none Decode.idle []) := by
      unfold Flasher.write
      rw [hsize, hdiv, initEc_eq]
    have htr : (mkSt
        (writeBytes fl (0 * 65536) (rangeGetD buf (0 * 65536) (65536 * (n + 1))))
        false false none Decode.idle
        ([] ++ joinIter (fun sector => sectorWriteTr buf sector) 0 (n + 1))).trace =
        writeTr buf (n + 1) := by
      rw [trace_mkSt, List.nil_append]
      rfl
    exact ⟨_, hw.trans h2, htr⟩

theorem claim_C5_witness :
    ∃ s1, Flasher.write ⟨65536 * 0⟩ (0 + 1) [] (initEc []) = EcRes.ok () s1 ∧
      s1.trace = writeTr [] 0 :=
  claim_C5 0 0 (by norm_num) ⟨65536 * 0⟩ rfl [] []

theorem bind_ok_elim {α β : Type} {x : EcM α} {g : α → EcM β} {s : SimEc} {b : β}
    {s2 : SimEc} (h : (x >>= g) s = EcRes.ok b s2) :
    ∃ a s1, x s = EcRes.ok a s1 ∧ g a s1 = EcRes.ok b s2 := by
  rw [bind_apply] at h
  cases hx : x s with
  | ok a s1 =>
    rw [hx] at h
    exact ⟨a, s1, rfl, h⟩
  | err s1 =>
    rw [hx] at h
    exact absurd h (by simp)

theorem ecCmd_ok {b : Nat} {s : SimEc} {a : Unit} {s1 : SimEc}
    (h : ecCmd b s = EcRes.ok a s1) :
    s1 = ecStep b
      { s with failAt := tick s.failAt, trace := s.trace ++ [Ev.cmd b] } := by
  unfold ecCmd at h
  cases hfa : s.failAt with
  | none =>
    rw [hfa] at h
    injection h with h1 h2
    exact h2.symm
  | some n =>
    cases n with
    | zero =>
      rw [hfa] at h
      exact absurd h (by simp)
    | succ n =>
      rw [hfa] at h
      injection h with h1 h2
      exact h2.symm

theorem ecStep_one (x : SimEc) (h : x.pend = Pending.pnone) :
    ecStep 1 x = devFinish { x with follow := true } := by
  unfold ecStep
  rw [h]
  rfl

theorem ecStep_five (x : SimEc) (h : x.pend = Pending.pnone) :
    ecStep 5 x = devFinish { x with follow := false } := by
  unfold ecStep
  rw [h]
  rfl

theorem ecStep_two (x : SimEc) (h : x.pend = Pending.pnone) :
    ecStep 2 x = { x with pend := Pending.pOp } := by
  unfold ecStep
  rw [h]
  rfl

theorem ecStep_three (x : SimEc) (h : x.pend = Pending.pnone) :
    ecStep 3 x = { x with pend := Pending.pDat } := by
  unfold ecStep
  rw [h]
  rfl

theorem ecStep_four (x : SimEc) (h : x.pend = Pending.pnone) :
    ecStep 4 x =
      { (devRead x).2 with out := (devRead x).2.out ++ [(devRead x).1] } := by
  unfold ecStep
  rw [h]
  rfl

theorem ecStep_pOp (b : Nat) (x : SimEc) (h : x.pend = Pending.pOp) :
    ecStep b x = devCmd b { x with pend := Pending.pnone } := by
  unfold ecStep
  rw [h]

theorem ecStep_pDat (b : Nat) (x : SimEc) (h : x.pend = Pending.pDat) :
    ecStep b x = devDat b { x with pend := Pending.pnone } := by
  unfold ecStep
  rw [h]

theorem devCmd_keeps (c : Nat) (x : SimEc) :
    (devCmd c x).pend = x.pend ∧ (devCmd c x).follow = x.follow := by
  unfold devCmd
  split_ifs <;> try exact ⟨rfl, rfl⟩
  cases hx : x.aai <;> exact ⟨rfl, rfl⟩

theorem devDat_keeps (b : Nat) (x : SimEc) :
    (devDat b x).pend = x.pend ∧ (devDat b x).follow = x.follow := by
  unfold devDat
  cases hd : x.dec <;> try exact ⟨rfl, rfl⟩
  all_goals dsimp only
  all_goals try (split_ifs <;> exact ⟨rfl, rfl⟩)
  cases ha : x.aai <;> exact ⟨rfl, rfl⟩

theorem devRead_keeps (x : SimEc) :
    (devRead x).2.pend = x.pend ∧ (devRead x).2.follow = x.follow := by
  unfold devRead
  cases hd : x.dec <;> exact ⟨rfl, rfl⟩

theorem ecRead_fields {s : SimEc} {v : Nat} {s1 : SimEc}
    (h : ecRead s = EcRes.ok v s1) :
    s1.pend = s.pend ∧ s1.follow = s.follow := by
  unfold ecRead at h
  cases ho : s.out with
  | nil =>
    rw [ho] at h
    exact absurd h (by simp)
  | cons y rest =>
    rw [ho] at h
    injection h with h1 h2
    rw [← h2]
    exact ⟨rfl, rfl⟩

theorem enter_fields {s : SimEc} {a : Unit} {s1 : SimEc}
    (hp : s.pend = Pending.pnone) (h : enter_follow_mode s = EcRes.ok a s1) :
    s1.pend = Pending.pnone ∧ s1.follow = true := by
  unfold enter_follow_mode at h
  have hs1 := ecCmd_ok h
  rw [ecStep_one _ (show ({ s with failAt := tick s.failAt, trace := s.trace ++ [Ev.cmd 1] } : SimEc).pend = Pending.pnone from hp)] at hs1
  subst hs1
  exact ⟨hp, rfl⟩

theorem exit_fields {s : SimEc} {a : Unit} {s1 : SimEc}
    (hp : s.pend = Pending.pnone) (h : exit_follow_mode s = EcRes.ok a s1) :
    s1.pend = Pending.pnone ∧ s1.follow = false := by
  unfold exit_follow_mode at h
  have hs1 := ecCmd_ok h
  rw [ecStep_five _ (show ({ s with failAt := tick s.failAt, trace := s.trace ++ [Ev.cmd 5] } : SimEc).pend = Pending.pnone from hp)] at hs1
  subst hs1
  exact ⟨hp, rfl⟩

theorem fk_spi_cmd (c : Nat) : FollowKeeps (spi_cmd c) := by
  intro s a s1 hp h
  unfold spi_cmd at h
  obtain ⟨u, t, h1, h2⟩ := bind_ok_elim h
  have ht := ecCmd_ok h1
  rw [ecStep_two _ (show ({ s with failAt := tick s.failAt, trace := s.trace ++ [Ev.cmd 2] } : SimEc).pend = Pending.pnone from hp)] at ht
  subst ht
  have hs1 := ecCmd_ok h2
  rw [ecStep_pOp c _ rfl] at hs1
  subst hs1
  exact ⟨(devCmd_keeps c _).1.trans rfl, (devCmd_keeps c _).2.trans rfl⟩

theorem fk_spi_write (v : Nat) : FollowKeeps (spi_write v) := by
  intro s a s1 hp h
  unfold spi_write at h
  obtain ⟨u, t, h1, h2⟩ := bind_ok_elim h
  have ht := ecCmd_ok h1
  rw [ecStep_three _ (show ({ s with failAt := tick s.failAt, trace := s.trace ++ [Ev.cmd 3] } : SimEc).pend = Pending.pnone from hp)] at ht
  subst ht
  have hs1 := ecCmd_ok h2
  rw [ecStep_pDat v _ rfl] at hs1
  subst hs1
  exact ⟨(devDat_keeps v _).1.trans rfl, (devDat_keeps v _).2.trans rfl⟩

theorem fk_spi_read : FollowKeeps spi_read := by
  intro s a s1 hp h
  unfold spi_read at h
  obtain ⟨u, t, h1, h2⟩ := bind_ok_elim h
  have ht := ecCmd_ok h1
  rw [ecStep_four _ (show ({ s with failAt := tick s.failAt, trace := s.trace ++ [Ev.cmd 4] } : SimEc).pend = Pending.pnone from hp)] at ht
  subst ht
  have hf := ecRead_fields h2
  exact ⟨hf.1.trans ((devRead_keeps _).1.trans hp),
    hf.2.trans ((devRead_keeps _).2.trans rfl)⟩

theorem spiPoll_zero (again : Nat → Bool) : spiPoll again 0 = ecErr := rfl

theorem spiPoll_succ (again : Nat → Bool) (f : Nat) :
    spiPoll again (f + 1) =
      spi_read >>= fun v => if again v then spiPoll again f else pure () := rfl

theorem fk_spiPoll (again : Nat → Bool) :
    ∀ (f : Nat), FollowKeeps (spiPoll again f) := by
  intro f
  induction f with
  | zero =>
    intro s a s1 hp h
    rw [spiPoll_zero] at h
    exact absurd h (by simp [ecErr])
  | succ f ih =>
    intro s a s1 hp h
    rw [spiPoll_succ] at h
    obtain ⟨v, t, h1, h2⟩ := bind_ok_elim h
    obtain ⟨hp1, hf1⟩ := fk_spi_read s v t hp h1
    by_cases hv : again v = true
    · rw [if_pos hv] at h2
      obtain ⟨hp2, hf2⟩ := ih t a s1 hp1 h2
      exact ⟨hp2, hf2.trans hf1⟩
    · rw [if_neg hv] at h2
      rw [pure_apply] at h2
      injection h2 with h3 h4
      rw [← h4]
      exact ⟨hp1, hf1⟩

theorem fk_readChunk : ∀ (n : Nat), FollowKeeps (readChunk n) := by
  intro n
  induction n with
  | zero =>
    intro s a s1 hp h
    rw [readChunk_zero, pure_apply] at h
    injection h with h1 h2
    rw [← h2]
    exact ⟨hp, rfl⟩
  | succ n ih =>
    intro s a s1 hp h
    rw [readChunk_succ] at h
    obtain ⟨v, t, h1, h2⟩ := bind_ok_elim h
    obtain ⟨hp1, hf1⟩ := fk_spi_read s v t hp h1
    obtain ⟨rest, t2, h3, h4⟩ := bind_ok_elim h2
    obtain ⟨hp2, hf2⟩ := ih t rest t2 hp1 h3
    rw [pure_apply] at h4
    injection h4 with h5 h6
    rw [← h6]
    exact ⟨hp2, hf2.trans hf1⟩

theorem fk_readBlocks : ∀ (n : Nat), FollowKeeps (readBlocks n) := by
  intro n
  induction n with
  | zero =>
    intro s a s1 hp h
    rw [readBlocks_zero, pure_apply] at h
    injection h with h1 h2
    rw [← h2]
    exact ⟨hp, rfl⟩
  | succ n ih =>
    intro s a s1 hp h
    rw [readBlocks_succ] at h
    obtain ⟨blk, t, h1, h2⟩ := bind_ok_elim h
    obtain ⟨hp1, hf1⟩ := fk_readChunk 1024 s blk t hp h1
    obtain ⟨rest, t2, h3, h4⟩ := bind_ok_elim h2
    obtain ⟨hp2, hf2⟩ := ih t rest t2 hp1 h3
    rw [pure_apply] at h4
    injection h4 with h5 h6
    rw [← h6]
    exact ⟨hp2, hf2.trans hf1⟩

theorem pk_of_fk {α : Type} {x : EcM α} (h : FollowKeeps x) : PendKeeps x :=
  fun s a s1 hp hr => (h s a s1 hp hr).1

theorem pk_of_fc {α : Type} {x : EcM α} (h : FollowClears x) : PendKeeps x :=
  fun s a s1 hp hr => (h s a s1 hp hr).1

theorem fs_of_fc {α : Type} {x : EcM α} (h : FollowClears x) : FollowStable x :=
  fun s a s1 hp hr => ⟨(h s a s1 hp hr).1, Or.inl (h s a s1 hp hr).2⟩

theorem pk_enter : PendKeeps enter_follow_mode :=
  fun s a s1 hp hr => (enter_fields hp hr).1

theorem pk_exit : PendKeeps exit_follow_mode :=
  fun s a s1 hp hr => (exit_fields hp hr).1

theorem fc_exit : FollowClears exit_follow_mode :=
  fun s a s1 hp hr => exit_fields hp hr

theorem pk_pure {α : Type} (v : α) : PendKeeps (pure v : EcM α) := by
  intro s a s1 hp h
  rw [pure_apply] at h
  injection h with h1 h2
  rw [← h2]
  exact hp

theorem pk_bind {α β : Type} {x : EcM α} {g : α → EcM β}
    (hx : PendKeeps x) (hg : ∀ b, PendKeeps (g b)) : PendKeeps (x >>= g) := by
  intro s a s1 hp h
  obtain ⟨b, t, h1, h2⟩ := bind_ok_elim h
  exact hg b t a s1 (hx s b t hp h1) h2

theorem pk_ite {α : Type} {c : Prop} [Decidable c] {x y : EcM α}
    (hx : PendKeeps x) (hy : PendKeeps y) : PendKeeps (if c then x else y) := by
  by_cases hc : c
  · rw [if_pos hc]; exact hx
  · rw [if_neg hc]; exact hy

theorem pk_iterM {body : Nat → EcM Unit} (hb : ∀ i, PendKeeps (body i)) :
    ∀ (n i : Nat), PendKeeps (iterM body i n) := by
  intro n
  induction n with
  | zero =>
    intro i s a s1 hp h
    rw [iterM_zero, pure_apply] at h
    injection h with h1 h2
    rw [← h2]
    exact hp
  | succ n ih =>
    intro i s a s1 hp h
    rw [iterM_succ] at h
    obtain ⟨b, t, h1, h2⟩ := bind_ok_elim h
    exact ih (i + 1) t a s1 (hb i s b t hp h1) h2

theorem pk_then_fc {α β : Type} {x : EcM α} {g : α → EcM β}
    (hx : PendKeeps x) (hg : ∀ b, FollowClears (g b)) :
    FollowClears (x >>= g) := by
  intro s a s1 hp h
  obtain ⟨b, t, h1, h2⟩ := bind_ok_elim h
  exact hg b t a s1 (hx s b t hp h1) h2

theorem fc_bind_pure {α β : Type} {x : EcM α} {v : α → β}
    (hx : FollowClears x) : FollowClears (x >>= fun a => pure (v a)) := by
  intro s a s1 hp h
  obtain ⟨b, t, h1, h2⟩ := bind_ok_elim h
  rw [pure_apply] at h2
  injection h2 with h3 h4
  rw [← h4]
  exact hx s b t hp h1

theorem fc_spi_wait (f : Nat) : FollowClears (spi_wait f) := by
  unfold spi_wait
  exact pk_then_fc pk_enter (fun _ => pk_then_fc (pk_of_fk (fk_spi_cmd 5)) (fun _ =>
    pk_then_fc (pk_of_fk (fk_spiPoll _ f)) (fun _ => fc_exit)))

theorem fc_wren (f : Nat) : FollowClears (spi_write_enable f) := by
  unfold spi_write_enable
  exact pk_then_fc (pk_of_fc (fc_spi_wait f)) (fun _ =>
    pk_then_fc pk_enter (fun _ =>
    pk_then_fc (pk_of_fk (fk_spi_cmd 6)) (fun _ =>
    pk_then_fc pk_enter (fun _ =>
    pk_then_fc (pk_of_fk (fk_spi_cmd 5)) (fun _ =>
    pk_then_fc (pk_of_fk (fk_spiPoll _ f)) (fun _ => fc_exit))))))

theorem fc_wrdi (f : Nat) : FollowClears (spi_write_disable f) := by
  unfold spi_write_disable
  exact pk_then_fc (pk_of_fc (fc_spi_wait f)) (fun _ =>
    pk_then_fc pk_enter (fun _ =>
    pk_then_fc (pk_of_fk (fk_spi_cmd 4)) (fun _ =>
    pk_then_fc pk_enter (fun _ =>
    pk_then_fc (pk_of_fk (fk_spi_cmd 5)) (fun _ =>
    pk_then_fc (pk_of_fk (fk_spiPoll _ f)) (fun _ => fc_exit))))))

theorem fc_eraseBlock (f sector block : Nat) :
    FollowClears (eraseBlock f sector block) := by
  unfold eraseBlock
  exact pk_then_fc (pk_of_fc (fc_wren f)) (fun _ =>
    pk_then_fc pk_enter (fun _ =>
    pk_then_fc (pk_of_fk (fk_spi_cmd 215)) (fun _ =>
    pk_then_fc (pk_of_fk (fk_spi_write _)) (fun _ =>
    pk_then_fc (pk_of_fk (fk_spi_write _)) (fun _ =>
    pk_then_fc (pk_of_fk (fk_spi_write 0)) (fun _ =>
    pk_then_fc pk_exit (fun _ => fc_spi_wait f)))))))

theorem fc_ite {α : Type} {c : Prop} [Decidable c] {x y : EcM α}
    (hx : FollowClears x) (hy : FollowClears y) :
    FollowClears (if c then x else y) := by
  by_cases hc : c
  · rw [if_pos hc]; exact hx
  · rw [if_neg hc]; exact hy

theorem fc_writeWord (f : Nat) (buf : List Nat) (sector block word : Nat) :
    FollowClears (writeWord f buf sector block word) := by
  unfold writeWord
  refine pk_then_fc pk_enter (fun _ =>
    pk_then_fc (pk_of_fk (fk_spi_cmd 173)) (fun _ => ?_))
  refine fc_ite ?_ ?_
  · exact pk_then_fc (pk_of_fk (fk_spi_write _)) (fun _ =>
      pk_then_fc (pk_of_fk (fk_spi_write _)) (fun _ =>
      pk_then_fc (pk_of_fk (fk_spi_write _)) (fun _ =>
      pk_then_fc (pk_of_fk (fk_spi_write _)) (fun _ =>
      pk_then_fc (pk_of_fk (fk_spi_write _)) (fun _ => fc_spi_wait f)))))
  · exact pk_then_fc (pk_pure ()) (fun _ =>
      pk_then_fc (pk_of_fk (fk_spi_write _)) (fun _ =>
      pk_then_fc (pk_of_fk (fk_spi_write _)) (fun _ => fc_spi_wait f)))

theorem fc_readSector (f sector : Nat) : FollowClears (readSector f sector) := by
  unfold readSector
  exact pk_then_fc (pk_of_fc (fc_wrdi f)) (fun _ =>
    pk_then_fc (pk_of_fc (fc_spi_wait f)) (fun _ =>
    pk_then_fc pk_enter (fun _ =>
    pk_then_fc (pk_of_fk (fk_spi_cmd 11)) (fun _ =>
    pk_then_fc (pk_of_fk (fk_spi_write _)) (fun _ =>
    pk_then_fc (pk_of_fk (fk_spi_write 0)) (fun _ =>
    pk_then_fc (pk_of_fk (fk_spi_write 0)) (fun _ =>
    pk_then_fc (pk_of_fk (fk_spi_write 0)) (fun _ =>
    pk_then_fc (pk_of_fk (fk_readBlocks 64)) (fun _ =>
    fc_bind_pure (fc_spi_wait f))))))))))

theorem fc_writeSectorBody (f : Nat) (buf : List Nat) (sector : Nat) :
    FollowClears (writeSectorBody f buf sector) := by
  unfold writeSectorBody
  exact pk_then_fc (pk_of_fc (fc_wren f)) (fun _ =>
    pk_then_fc (pk_iterM (fun block =>
      pk_iterM (fun word => pk_of_fc (fc_writeWord f buf sector block word)) 512 0) 64 0)
      (fun _ =>
    pk_then_fc (pk_of_fc (fc_wrdi f)) (fun _ => fc_spi_wait f)))

theorem fs_iterM {body : Nat → EcM Unit} (hb : ∀ i, FollowStable (body i)) :
    ∀ (n i : Nat), FollowStable (iterM body i n) := by
  intro n
  induction n with
  | zero =>
    intro i s a s1 hp h
    rw [iterM_zero, pure_apply] at h
    injection h with h1 h2
    rw [← h2]
    exact ⟨hp, Or.inr rfl⟩
  | succ n ih =>
    intro i s a s1 hp h
    rw [iterM_succ] at h
    obtain ⟨b, t, h1, h2⟩ := bind_ok_elim h
    obtain ⟨hp1, hf1⟩ := hb i s b t hp h1
    obtain ⟨hp2, hf2⟩ := ih (i + 1) t a s1 hp1 h2
    refine ⟨hp2, ?_⟩
    rcases hf2 with hf2 | hf2
    · exact Or.inl hf2
    · subst hf2
      rcases hf1 with hf1 | hf1
      · exact Or.inl hf1
      · exact Or.inr hf1

theorem fs_readSectors (f : Nat) : ∀ (n i : Nat), FollowStable (readSectors f i n) := by
  intro n
  induction n with
  | zero =>
    intro i s a s1 hp h
    rw [readSectors_zero, pure_apply] at h
    injection h with h1 h2
    rw [← h2]
    exact ⟨hp, Or.inr rfl⟩
  | succ n ih =>
    intro i s a s1 hp h
    rw [readSectors_succ] at h
    obtain ⟨chunk, t, h1, h2⟩ := bind_ok_elim h
    obtain ⟨hp1, hf1⟩ := fc_readSector f i s chunk t hp h1
    obtain ⟨rest, t2, h3, h4⟩ := bind_ok_elim h2
    obtain ⟨hp2, hf2⟩ := ih (i + 1) t rest t2 hp1 h3
    rw [pure_apply] at h4
    injection h4 with h5 h6
    rw [← h6]
    refine ⟨hp2, ?_⟩
    rcases hf2 with hf2 | hf2
    · exact Or.inl hf2
    · subst hf2
      exact Or.inl hf1

/-- C3 counterexample: on a channel whose second `ec.cmd` times out,
`spi_wait` fails right after `enter_follow_mode` and returns with follow
mode still on — the early error return (`?`) does not exit follow mode, so
the original claim's "on every return path including early error returns"
does not hold. -/
theorem claim_C3_counterexample :
    isErrR (spi_wait 1 cexSt) = true ∧ followAfter (spi_wait 1 cexSt) = true := by
  decide

/-- C3 (amended): on every successful return, each follow-mode primitive of
the flasher ends with follow mode off — `spi_wait`, `spi_write_enable` and
`spi_write_disable` always (they end by exiting follow mode), and
`Flasher::read`, `Flasher::erase` and `Flasher::write` leave follow mode off
or (when their region loop runs zero iterations) return the state untouched;
in all cases a boundary state with follow mode off is mapped to a boundary
state with follow mode off.  Error returns are excluded: they can leave
follow mode on (see the counterexample). -/
theorem claim_C3 (f : Nat) (fr : Flasher) (buf : List Nat) :
    FollowClears (spi_wait f) ∧ FollowClears (spi_write_enable f) ∧
    FollowClears (spi_write_disable f) ∧ FollowStable (Flasher.read fr f) ∧
    FollowStable (Flasher.erase fr f) ∧ FollowStable (Flasher.write fr f buf) := by
  refine ⟨fc_spi_wait f, fc_wren f, fc_wrdi f, ?_, ?_, ?_⟩
  · show FollowStable (readSectors f 0 (fr.size / 65536))
    exact fs_readSectors f (fr.size / 65536) 0
  · show FollowStable (iterM
      (fun sector => iterM (fun block => eraseBlock f sector block) 0 64) 0
      (fr.size / 65536))
    exact fs_iterM (fun sector =>
      fs_iterM (fun block => fs_of_fc (fc_eraseBlock f sector block)) 64 0)
      (fr.size / 65536) 0
  · show FollowStable (iterM (fun sector => writeSectorBody f buf sector) 0
      (fr.size / 65536))
    exact fs_iterM (fun sector => fs_of_fc (fc_writeSectorBody f buf sector))
      (fr.size / 65536) 0

theorem claim_C3_witness :
    (mkSt [] false false none Decode.idle ([] ++ spiWaitTr)).follow = false :=
  ((claim_C3 1 ⟨0⟩ []).1 (initEc []) ()
    (mkSt [] false false none Decode.idle ([] ++ spiWaitTr)) rfl
    (spi_wait_run 0 [] false false none Decode.idle [])).2

end Sim

namespace Isp

theorem spi_bind_apply {α β : Type} (x : SpiM α) (g : α → SpiM β) (s : SpiSt) :
    (x >>= g) s =
      match x s with
      | SpiRes.ok a s1 => g a s1
      | SpiRes.err s1 => SpiRes.err s1 := rfl

theorem spi_pure_apply {α : Type} (a : α) (s : SpiSt) :
    (pure a : SpiM α) s = SpiRes.ok a s := rfl

theorem spi_bind_ok {α β : Type} {x : SpiM α} {g : α → SpiM β} {s s1 : SpiSt}
    {v : α} (h : x s = SpiRes.ok v s1) : (x >>= g) s = g v s1 := by
  rw [spi_bind_apply, h]

theorem statusPoll_zero (again : Nat → Bool) : statusPoll again 0 = spiErr := rfl

theorem statusPoll_succ (again : Nat → Bool) (f : Nat) :
    statusPoll again (f + 1) =
      rom_status >>= fun v => if again v then statusPoll again f else pure () := rfl

theorem bus_reset_run (s : SpiSt) :
    bus_reset s = SpiRes.ok ()
      { s with
        dataMode := false,
        events := s.events ++ ((if s.dataMode then [PEv.indar1 254] else []) ++
          [PEv.busW [0]]) } := by
  cases hd : s.dataMode <;>
    simp [bus_reset, getData, setData, flash_indar1, flash_write, hd, spi_bind_apply]

theorem rom_status_run (s : SpiSt) :
    rom_status s = SpiRes.ok (s.rdSeq s.rdIdx)
      { s with
        dataMode := true,
        events := s.events ++ ((if s.dataMode then [PEv.indar1 254] else []) ++
          [PEv.busW [0], PEv.indar1 253, PEv.busW [5], PEv.busR 1]),
        rdIdx := s.rdIdx + 1 } := by
  cases hd : s.dataMode <;>
    simp [rom_status, bus_reset, bus_write, bus_read1, getData, setData,
      flash_indar1, flash_write, flash_read1, hd, spi_bind_apply]

theorem statusPoll_events (again : Nat → Bool) :
    ∀ (f : Nat) (s : SpiSt),
      ∃ tail, (afterSt (statusPoll again f s)).events = s.events ++ tail := by
  intro f
  induction f with
  | zero =>
    intro s
    exact ⟨[], by simp [statusPoll_zero, spiErr, afterSt]⟩
  | succ f ih =>
    intro s
    rw [statusPoll_succ, spi_bind_ok (rom_status_run s)]
    by_cases hv : again (s.rdSeq s.rdIdx) = true
    · rw [if_pos hv]
      obtain ⟨tail, ht⟩ := ih
        { s with
          dataMode := true,
          events := s.events ++ ((if s.dataMode then [PEv.indar1 254] else []) ++
            [PEv.busW [0], PEv.indar1 253, PEv.busW [5], PEv.busR 1]),
          rdIdx := s.rdIdx + 1 }
      refine ⟨((if s.dataMode then [PEv.indar1 254] else []) ++
        [PEv.busW [0], PEv.indar1 253, PEv.busW [5], PEv.busR 1]) ++ tail, ?_⟩
      rw [ht]
      simp [List.append_assoc]
    · rw [if_neg hv]
      refine ⟨(if s.dataMode then [PEv.indar1 254] else []) ++
        [PEv.busW [0], PEv.indar1 253, PEv.busW [5], PEv.busR 1], ?_⟩
      rw [spi_pure_apply]
      rfl

theorem write_disable_run (f : Nat) (s : SpiSt) :
    write_disable f s = statusPoll (fun v => decide (v &&& 3 ≠ 0)) f
      { s with
        dataMode := true,
        events := s.events ++ ((if s.dataMode then [PEv.indar1 254] else []) ++
          [PEv.busW [0], PEv.indar1 253, PEv.busW [4]]) } := by
  cases hd : s.dataMode <;>
    simp [write_disable, bus_reset, bus_write, getData, setData, flash_indar1,
      flash_write, hd, spi_bind_apply]

theorem write_disable_events (f : Nat) (s : SpiSt) :
    ∃ tail, (afterSt (write_disable f s)).events =
      s.events ++ ((if s.dataMode then [PEv.indar1 254] else []) ++
        ([PEv.busW [0], PEv.indar1 253, PEv.busW [4]] ++ tail)) := by
  rw [write_disable_run]
  obtain ⟨tail, ht⟩ := statusPoll_events (fun v => decide (v &&& 3 ≠ 0)) f
    { s with
      dataMode := true,
      events := s.events ++ ((if s.dataMode then [PEv.indar1 254] else []) ++
        [PEv.busW [0], PEv.indar1 253, PEv.busW [4]]) }
  refine ⟨tail, ?_⟩
  rw [ht]
  simp [List.append_assoc]

theorem dropSpiRom_run (f : Nat) (s : SpiSt) :
    dropSpiRom f s = SpiRes.ok () (afterSt (write_disable f s)) := by
  cases hw : write_disable f s <;> simp [dropSpiRom, afterSt, hw]

theorem dropSpiBus_run (s : SpiSt) :
    dropSpiBus s = SpiRes.ok () (afterSt (bus_reset s)) := by
  cases hw : bus_reset s <;> simp [dropSpiBus, afterSt, hw]

theorem verifyErase_cons (b : Nat) (rest : List Nat) (k : Nat) :
    verifyErase (b :: rest) k =
      if b ≠ 255 then Except.error (k, b) else verifyErase rest (k + 1) := rfl

theorem verifyErase_ok (l : List Nat) (hall : ∀ b ∈ l, b = 255) :
    ∀ (k : Nat), verifyErase l k = Except.ok () := by
  induction l with
  | nil => intro k; rfl
  | cons b rest ih =>
    intro k
    have hb : b = 255 := hall b (by simp)
    rw [verifyErase_cons, if_neg (by simp [hb])]
    exact ih (fun x hx => hall x (by simp [hx])) (k + 1)

theorem verifyErase_err (i : Nat) :
    ∀ (l : List Nat) (k : Nat), (∀ j < i, l.getD j 0 = 255) → i < l.length →
      l.getD i 0 ≠ 255 →
      verifyErase l k = Except.error (k + i, l.getD i 0) := by
  induction i with
  | zero =>
    intro l k hpre hi hbad
    cases l with
    | nil => simp at hi
    | cons b rest =>
      simp only [List.getD_cons_zero] at hbad ⊢
      rw [verifyErase_cons, if_pos hbad, Nat.add_zero]
  | succ i ih =>
    intro l k hpre hi hbad
    cases l with
    | nil => simp at hi
    | cons b rest =>
      have hb : b = 255 := by
        have := hpre 0 (by omega)
        simpa using this
      rw [verifyErase_cons, if_neg (by simp [hb])]
      simp only [List.getD_cons_succ] at hbad ⊢
      have hrec := ih rest (k + 1)
        (fun j hj => by
          have := hpre (j + 1) (by omega)
          simpa using this)
        (by simpa using hi) hbad
      rw [hrec]
      have harith : k + 1 + i = k + (i + 1) := by omega
      rw [harith]

end Isp

/-- C6: every SPI address operation of `SpiRom` rejects an address with a
nonzero high byte before touching the port bus: with `A &&& 0xFF000000 ≠ 0`,
`erase_sector`, `read_at` and `write_at` return the `InvalidInput`-style
error with the bus state unchanged — in particular no port access is
recorded. -/
theorem claim_C6 (f A n : Nat) (data : List Nat) (s : Isp.SpiSt)
    (hA : A &&& 0xFF000000 ≠ 0) :
    Isp.erase_sector f A s = Isp.SpiRes.err s ∧
    Isp.read_at f A n s = Isp.SpiRes.err s ∧
    Isp.write_at f A data s = Isp.SpiRes.err s := by
  have hpos : 0 < A &&& 0xFF000000 := Nat.pos_of_ne_zero hA
  refine ⟨?_, ?_, ?_⟩
  · unfold Isp.erase_sector
    rw [if_pos hpos]
    rfl
  · unfold Isp.read_at
    rw [if_pos hpos]
    rfl
  · unfold Isp.write_at
    rw [if_pos hpos]
    rfl

theorem claim_C6_witness :
    Isp.erase_sector 1 0xFF000000 (Isp.initSpi (fun _ => 0)) =
      Isp.SpiRes.err (Isp.initSpi (fun _ => 0)) ∧
    Isp.read_at 1 0xFF000000 4 (Isp.initSpi (fun _ => 0)) =
      Isp.SpiRes.err (Isp.initSpi (fun _ => 0)) ∧
    Isp.write_at 1 0xFF000000 [1, 2] (Isp.initSpi (fun _ => 0)) =
      Isp.SpiRes.err (Isp.initSpi (fun _ => 0)) :=
  claim_C6 1 0xFF000000 4 [1, 2] (Isp.initSpi (fun _ => 0)) (by decide)

/-- C4 counterexample: the library `Flasher` of `src/flasher.rs` declares no
`Drop` implementation, so dropping it runs no EC commands at all — on a
state whose follow-mode flag was left on by an aborted primitive, the flag
is still on afterwards, observable by the next user of the channel. -/
theorem claim_C4_counterexample :
    Sim.Flasher.dropRun Sim.cexFollowSt = Sim.EcRes.ok () Sim.cexFollowSt ∧
    Sim.cexFollowSt.follow = true := ⟨rfl, rfl⟩

/-- C4 (amended): the library `Flasher` performs no cleanup on drop (see the
counterexample); the isp.rs SPI tools do: dropping a `SpiRom` always
completes and attempts `write_disable`, whose port-access trace starts with
the chip deselect (`reset`) and the WRDI opcode write; dropping a `SpiBus`
resets the bus, leaving follow-data mode off. -/
theorem claim_C4 (f : Nat) (s : Isp.SpiSt) :
    (∃ tail, Isp.dropSpiRom f s =
        Isp.SpiRes.ok () (Isp.afterSt (Isp.write_disable f s)) ∧
      (Isp.afterSt (Isp.write_disable f s)).events =
        s.events ++ ((if s.dataMode then [Isp.PEv.indar1 254] else []) ++
          ([Isp.PEv.busW [0], Isp.PEv.indar1 253, Isp.PEv.busW [4]] ++ tail))) ∧
    Isp.dropSpiBus s = Isp.SpiRes.ok () (Isp.afterSt (Isp.bus_reset s)) ∧
    (Isp.afterSt (Isp.bus_reset s)).dataMode = false := by
  refine ⟨?_, Isp.dropSpiBus_run s, ?_⟩
  · obtain ⟨tail, ht⟩ := Isp.write_disable_events f s
    exact ⟨tail, Isp.dropSpiRom_run f s, ht⟩
  · rw [Isp.bus_reset_run]
    rfl

/-- C2 counterexample: in the example `flash.rs` flow, a post-erase
read-back of `[0xAA]` logs the mismatch at offset 0 with the byte read, yet
the flow still proceeds to program the image — the deviation is not a fatal
error there. -/
theorem claim_C2_counterexample :
    FlashMain.Step.logMismatch 0 170 ∈ FlashMain.afterEraseRead [170] ∧
    FlashMain.Step.program ∈ FlashMain.afterEraseRead [170] := by decide

/-- C2 (amended): after the erase step, the example `flash.rs` flow re-reads
and merely logs each byte differing from 0xFF, then programs
unconditionally; only the isp.rs flow makes the first deviation a fatal
erase-failed error naming the offset and the byte read, and programs only
when every re-read byte is 0xFF. -/
theorem claim_C2 (rom : List Nat) :
    FlashMain.Step.program ∈ FlashMain.afterEraseRead rom ∧
    (∀ i, (∀ j < i, rom.getD j 0 = 255) → i < rom.length → rom.getD i 0 ≠ 255 →
      FlashMain.Step.logMismatch i (rom.getD i 0) ∈ FlashMain.afterEraseRead rom ∧
      Isp.afterEraseVerify rom = Except.error (i, rom.getD i 0)) ∧
    ((∀ b ∈ rom, b = 255) →
      Isp.afterEraseVerify rom = Except.ok [FlashMain.Step.program]) := by
  refine ⟨?_, ?_, ?_⟩
  · simp [FlashMain.afterEraseRead]
  · intro i hpre hi hbad
    constructor
    · apply List.mem_append_left
      apply List.mem_filterMap.mpr
      refine ⟨i, ?_, ?_⟩
      · simp [List.mem_range]
        omega
      · rw [if_pos hbad]
    · have hv := Isp.verifyErase_err i rom 0 hpre hi hbad
      rw [Nat.zero_add] at hv
      unfold Isp.afterEraseVerify
      rw [hv]
  · intro hall
    unfold Isp.afterEraseVerify
    rw [Isp.verifyErase_ok rom hall 0]

theorem claim_C2_witness :
    FlashMain.Step.logMismatch 0 (List.getD [170] 0 0) ∈
      FlashMain.afterEraseRead [170] ∧
    Isp.afterEraseVerify [170] = Except.error (0, List.getD [170] 0 0) :=
  (claim_C2 [170]).2.1 0 (fun j hj => absurd hj (by omega)) (by decide) (by decide)

end Ecflash
